import Mathlib

/-! stringbuilder.c: a growable character buffer

A shallow embedding of `stringbuilder.c` / `stringbuilder.h`.

* The C `int` fields and locals are integers (`Int`), and arithmetic is modelled without
  wrap-around.  Signed overflow is undefined in C, so a call of the source agrees with its
  model as long as no `int` computation of the call overflows.  Every theorem that asserts
  that an append returns therefore assumes a bound (`strn_in_int_range`, `ch_in_int_range`,
  `≤ INT_MAX`) under which none does, and states that the values it computes are `int`s.
* `cstr` points to a heap block; the block is the list of its bytes, so the length of the
  list is the number of bytes really allocated, which the code tracks in the field `size`.
* A call either returns, or has undefined behaviour (an access outside a block), or is
  still looping when the fuel given to the `do ... while` loop is used up.  A freed block has
  no accessible byte: it is the empty list, and every access to it is outside the block.
* `realloc` and `malloc` may fail; each call that can reach them takes the allocator's answer
  as an argument (`sb_new_with_size` is modelled for succeeding `malloc` calls).
-/

namespace SB

/-- A `char`. -/
abbrev Byte := UInt8

/-- Ways in which a call does not return normally. -/
inductive Fault where
  /-- Undefined behaviour: an access outside an allocated block. -/
  | undefined
  /-- The doubling loop was still running when the fuel ran out. -/
  | timeout
  deriving DecidableEq

/-- The struct `stringbuilder` of `stringbuilder.h`; `cstr` is the pointed-to block. -/
structure stringbuilder where
  cstr : List Byte
  pos : Int
  size : Int
  reallocs : Int
  deriving DecidableEq

/-- The answer of the allocator to one `realloc` request: it fails (returns `NULL`), or it
succeeds and `junk i` is the indeterminate value of the `i`-th byte added to the block. -/
inductive Alloc where
  | fail
  | ok (junk : Nat → Byte)

/-- Whether the allocator's answer is a success. -/
def Alloc.succeeds : Alloc → Bool
  | .fail => false
  | .ok _ => true

/-- The C call `memset(block + off, c, n)`: defined when `[off, off + n)` lies in the block. -/
def memset (block : List Byte) (off : Int) (c : Byte) (n : Int) : Option (List Byte) :=
  if 0 ≤ off ∧ 0 ≤ n ∧ off + n ≤ block.length then
    some (block.take off.toNat ++ List.replicate n.toNat c ++ block.drop (off + n).toNat)
  else none

/-- The C call `memcpy(block + off, src, n)`: defined when `[off, off + n)` lies in the block
and `src` has `n` readable bytes. -/
def memcpy (block : List Byte) (off : Int) (src : List Byte) (n : Int) : Option (List Byte) :=
  if 0 ≤ off ∧ 0 ≤ n ∧ off + n ≤ block.length ∧ n ≤ src.length then
    some (block.take off.toNat ++ src.take n.toNat ++ block.drop (off + n).toNat)
  else none

/-- The C assignment `block[i] = c`: defined when `i` is an index of the block. -/
def store (block : List Byte) (i : Int) (c : Byte) : Option (List Byte) :=
  if 0 ≤ i ∧ i < block.length then some (block.set i.toNat c) else none

/-- The C call `strlen(src)`, where `src` lists the readable bytes from the pointer on:
the offset of the first zero byte; reading past the readable bytes is undefined. -/
def strlen : List Byte → Option Int
  | [] => none
  | c :: rest => if c = 0 then some 0 else (strlen rest).map (fun n => n + 1)

/-- The C call `realloc(block, n)` with `n` an `int` converted to `size_t`: the returned
pointer (`none` is `NULL`, `some b` the block it points to) and what is left of the old block.
A zero size frees the block and returns `NULL` (as glibc does); a negative `int` converts to a
size no allocator serves (`NULL`, the block is kept); otherwise the allocator decides: on
failure `NULL` and the block is kept, on success the first `min(old, n)` bytes are kept in
the new block, the added bytes are indeterminate and the old block is gone. -/
def realloc (heap : Alloc) (block : List Byte) (n : Int) : Option (List Byte) × List Byte :=
  if n = 0 then (none, [])
  else if n < 0 then (none, block)
  else
    match heap with
    | .fail => (none, block)
    | .ok junk =>
      (some (block.take n.toNat ++ (List.range (n.toNat - block.length)).map junk), [])

/-- Model of `sb_new_with_size(size)` when both `malloc` calls succeed. -/
def sb_new_with_size (size : Int) : Except Fault stringbuilder :=
  if size < 0 then .error .undefined
  else .ok { cstr := List.replicate size.toNat 0, pos := 0, size := size, reallocs := 0 }

/-- Model of `sb_new()`. -/
def sb_new : Except Fault stringbuilder :=
  sb_new_with_size 1024

/-- Model of `sb_reset(sb)`. -/
def sb_reset (sb : stringbuilder) : Except Fault stringbuilder :=
  match memset sb.cstr 0 0 sb.size with
  | none => .error .undefined
  | some block => .ok { sb with pos := 0, cstr := block }

/-- Model of `sb_resize(sb, new_size)`: the updated struct and the returned `int`.  When
`realloc` returns `NULL` the old pointer is put back, whatever became of its block. -/
def sb_resize (heap : Alloc) (sb : stringbuilder) (new_size : Int) :
    Except Fault (stringbuilder × Int) :=
  match realloc heap sb.cstr new_size with
  | (none, old_block) => .ok ({ sb with cstr := old_block }, 0)
  | (some block, _) =>
    match memset block sb.pos 0 (new_size - sb.pos) with
    | none => .error .undefined
    | some zeroed =>
      .ok ({ sb with cstr := zeroed, size := new_size, reallocs := sb.reallocs + 1 }, 1)

/-- Model of `sb_double_size(sb)`, over unbounded integers: it is the call of the source as
long as `size * 2` is an `int`, which the theorems that use its result assume
(`ch_in_int_range`). -/
def sb_double_size (heap : Alloc) (sb : stringbuilder) : Except Fault (stringbuilder × Int) :=
  sb_resize heap sb (sb.size * 2)

/-- Model of `sb_append_ch(sb, ch)`; the result of `sb_double_size` is dropped, as in the
source. -/
def sb_append_ch (heap : Alloc) (sb : stringbuilder) (ch : Byte) : Except Fault stringbuilder :=
  let grown : Except Fault stringbuilder :=
    if sb.pos = sb.size then
      match sb_double_size heap sb with
      | .error e => .error e
      | .ok r => .ok r.1
    else .ok sb
  match grown with
  | .error e => .error e
  | .ok sb1 =>
    match store sb1.cstr sb1.pos ch with
    | none => .error .undefined
    | some block => .ok { sb1 with cstr := block, pos := sb1.pos + 1 }

/-- The loop `do { new_size = new_size * 2; } while (new_size < sb->size + chars_required);`
of `sb_append_strn`, run for at most `fuel` iterations, over unbounded integers: it is the
loop of the source as long as the doubled values and the bound are `int`s, which the theorems
asserting that an append returns assume (`strn_in_int_range`); its termination is studied
over unbounded integers. -/
def double_loop (fuel : Nat) (new_size size chars_required : Int) : Except Fault Int :=
  match fuel with
  | 0 => .error .timeout
  | fuel + 1 =>
    let doubled := new_size * 2
    if doubled < size + chars_required then double_loop fuel doubled size chars_required
    else .ok doubled

/-- Model of `sb_append_strn(sb, src, length)`; the result of `sb_resize` is dropped, as in
the source. -/
def sb_append_strn (fuel : Nat) (heap : Alloc) (sb : stringbuilder) (src : List Byte)
    (length : Int) : Except Fault stringbuilder :=
  let chars_remaining := sb.size - sb.pos - 1
  let grown : Except Fault stringbuilder :=
    if chars_remaining < length then
      let chars_required := length - chars_remaining
      match double_loop fuel sb.size sb.size chars_required with
      | .error e => .error e
      | .ok new_size =>
        match sb_resize heap sb new_size with
        | .error e => .error e
        | .ok r => .ok r.1
    else .ok sb
  match grown with
  | .error e => .error e
  | .ok sb1 =>
    match memcpy sb1.cstr sb1.pos src length with
    | none => .error .undefined
    | some block => .ok { sb1 with cstr := block, pos := sb1.pos + length }

/-- Model of `sb_append_str(sb, src)`. -/
def sb_append_str (fuel : Nat) (heap : Alloc) (sb : stringbuilder) (src : List Byte) :
    Except Fault stringbuilder :=
  match strlen src with
  | none => .error .undefined
  | some n => sb_append_strn fuel heap sb src n

/-- The mutating operations of the interface. -/
inductive Op where
  | reset
  | append_ch (ch : Byte)
  | append_strn (src : List Byte) (length : Int)
  | append_str (src : List Byte)
  | double_size

/-- One call, with the allocator's answer to the `realloc` it may issue. -/
def step (fuel : Nat) (heap : Alloc) (sb : stringbuilder) : Op → Except Fault stringbuilder
  | .reset => sb_reset sb
  | .append_ch ch => sb_append_ch heap sb ch
  | .append_strn src length => sb_append_strn fuel heap sb src length
  | .append_str src => sb_append_str fuel heap sb src
  | .double_size =>
    match sb_double_size heap sb with
    | .error e => .error e
    | .ok r => .ok r.1

/-- A sequence of calls, each with its allocator answer, stopping at the first fault. -/
def run (fuel : Nat) : List (Op × Alloc) → stringbuilder → Except Fault stringbuilder
  | [], sb => .ok sb
  | (op, heap) :: rest, sb =>
    match step fuel heap sb op with
    | .error e => .error e
    | .ok sb1 => run fuel rest sb1

/-- The struct describes its block: `size` bytes are allocated and `pos` is within them. -/
def wf (sb : stringbuilder) : Prop :=
  (sb.cstr.length : Int) = sb.size ∧ 0 ≤ sb.pos ∧ sb.pos ≤ sb.size

instance (sb : stringbuilder) : Decidable (wf sb) := by
  unfold wf
  infer_instance

/-- The calls of a round trip: every chunk is appended with `sb_append_strn`, the count
being the chunk's length, and every `realloc` succeeds (each chunk comes with the
indeterminate bytes of the reallocation its call may issue). -/
def append_chunks (chunks : List (List Byte × (Nat → Byte))) : List (Op × Alloc) :=
  chunks.map (fun c => (Op.append_strn c.1 c.1.length, Alloc.ok c.2))

/-- The sum of the chunk lengths. -/
def total_length (chunks : List (List Byte × (Nat → Byte))) : Int :=
  (chunks.map (fun c => (c.1.length : Int))).sum

/-- The concatenation of the chunks, in order. -/
def concat_chunks (chunks : List (List Byte × (Nat → Byte))) : List Byte :=
  (chunks.map (fun c => c.1)).flatten

/-- Whether the guard of the call sends it to `sb_resize`: `pos == size` in `sb_append_ch`,
`chars_remaining < length` in `sb_append_strn`; `sb_double_size` always resizes. -/
def grows (sb : stringbuilder) : Op → Bool
  | .reset => false
  | .append_ch _ => decide (sb.pos = sb.size)
  | .append_strn _ length => decide (sb.size - sb.pos - 1 < length)
  | .append_str src =>
    match strlen src with
    | none => false
    | some n => decide (sb.size - sb.pos - 1 < n)
  | .double_size => true

/-- The number of calls of a run that were sent to `sb_resize`. -/
def growth_events (fuel : Nat) : List (Op × Alloc) → stringbuilder → Int
  | [], _ => 0
  | (op, heap) :: rest, sb =>
    (if grows sb op then 1 else 0) +
      match step fuel heap sb op with
      | .error _ => 0
      | .ok sb1 => growth_events fuel rest sb1

/-- The macro `sb_cstring(sb)`: the buffer's own storage. -/
def sb_cstring (sb : stringbuilder) : List Byte :=
  sb.cstr

/-- The C call `malloc(n)` with `n` an `int` converted to `size_t`: a negative `int` converts
to a size no allocator serves (`NULL`), otherwise the allocator decides; on success the block
has `n` indeterminate bytes. -/
def malloc (heap : Alloc) (n : Int) : Option (List Byte) :=
  if n < 0 then none
  else
    match heap with
    | .fail => none
    | .ok junk => some ((List.range n.toNat).map junk)

/-- The C call `strcpy(dst, src)`: the bytes of `src` up to and including its first zero byte
are copied to the start of `dst`; undefined when `src` has no zero byte among its readable
bytes or when `dst` is too small for the copy. -/
def strcpy (dst src : List Byte) : Option (List Byte) :=
  match strlen src with
  | none => none
  | some n =>
    if n + 1 ≤ dst.length then some (src.take (n + 1).toNat ++ dst.drop (n + 1).toNat)
    else none

/-- Model of `sb_make_cstring(sb)`: the struct after the call and the returned pointer, `none`
being the null pointer and `some out` the bytes of the region it points to.  When `malloc`
returns `NULL` the `strcpy` writes through it, which is undefined. -/
def sb_make_cstring (heap : Alloc) (sb : stringbuilder) :
    Except Fault (stringbuilder × Option (List Byte)) :=
  if sb.pos = 0 then .ok (sb, none)
  else
    match malloc heap (sb.pos + 1) with
    | none => .error .undefined
    | some out =>
      match strcpy out (sb_cstring sb) with
      | none => .error .undefined
      | some copied => .ok (sb, some copied)

/-- The calls that append the bytes one at a time with `sb_append_ch`, every `realloc`
succeeding (each byte comes with the indeterminate bytes of the reallocation its call may
issue). -/
def append_each (bytes : List (Byte × (Nat → Byte))) : List (Op × Alloc) :=
  bytes.map (fun b => (Op.append_ch b.1, Alloc.ok b.2))

/-- Every byte of `cstr[pos..size)` is zero. -/
def zero_tail (sb : stringbuilder) : Prop :=
  sb.cstr.drop sb.pos.toNat = List.replicate (sb.size - sb.pos).toNat 0

instance (sb : stringbuilder) : Decidable (zero_tail sb) := by
  unfold zero_tail
  infer_instance

/-- The largest value of the C type `int` (32 bits). -/
def INT_MAX : Int := 2147483647

/-- A bound under which no `int` computation of `sb_append_strn(sb, src, count)` overflows:
`size` and `reallocs` are `int`s, and when the guard sends the call to the doubling loop,
twice the length to reach is an `int` too (the loop stops at or below it) and `reallocs` can
be incremented. -/
def strn_in_int_range (sb : stringbuilder) (count : Int) : Prop :=
  sb.size ≤ INT_MAX ∧ sb.reallocs ≤ INT_MAX ∧
  (sb.size - sb.pos - 1 < count → (sb.pos + count) * 2 ≤ INT_MAX ∧ sb.reallocs < INT_MAX)

instance (sb : stringbuilder) (count : Int) : Decidable (strn_in_int_range sb count) := by
  unfold strn_in_int_range
  infer_instance

/-- A bound under which no `int` computation of `sb_append_ch(sb, ch)` overflows: `size` and
`reallocs` are `int`s, and when the guard sends the call to `sb_double_size`, twice the size
is an `int` too and `reallocs` can be incremented. -/
def ch_in_int_range (sb : stringbuilder) : Prop :=
  sb.size ≤ INT_MAX ∧ sb.reallocs ≤ INT_MAX ∧
  (sb.pos = sb.size → sb.size * 2 ≤ INT_MAX ∧ sb.reallocs < INT_MAX)

instance (sb : stringbuilder) : Decidable (ch_in_int_range sb) := by
  unfold ch_in_int_range
  infer_instance

/-! ## Memory primitives, the loop and the resize -/

theorem memset_length {block : List Byte} {off n : Int} {c : Byte} {out : List Byte}
    (h : memset block off c n = some out) : out.length = block.length := by
  unfold memset at h
  split at h
  · rename_i hb
    injection h with h
    subst h
    simp only [List.length_append, List.length_take, List.length_replicate, List.length_drop]
    omega
  · cases h

theorem memcpy_length {block src : List Byte} {off n : Int} {out : List Byte}
    (h : memcpy block off src n = some out) : out.length = block.length := by
  unfold memcpy at h
  split at h
  · rename_i hb
    injection h with h
    subst h
    simp only [List.length_append, List.length_take, List.length_drop]
    omega
  · cases h

theorem store_length {block : List Byte} {i : Int} {c : Byte} {out : List Byte}
    (h : store block i c = some out) : out.length = block.length := by
  unfold store at h
  split at h
  · injection h with h
    subst h
    simp
  · cases h

theorem double_loop_shape (fuel : Nat) : ∀ (cur size req r : Int),
    double_loop fuel cur size req = .ok r →
    ∃ k : Nat, 1 ≤ k ∧ r = cur * 2 ^ k ∧ size + req ≤ r ∧
      ∀ j : Nat, 1 ≤ j → j < k → cur * 2 ^ j < size + req := by
  induction fuel with
  | zero => intro cur size req r h; simp [double_loop] at h
  | succ f ih =>
    intro cur size req r h
    simp only [double_loop] at h
    split at h
    · rename_i hlt
      obtain ⟨k, hk, hr, hb, hmin⟩ := ih _ _ _ _ h
      refine ⟨k + 1, by omega, ?_, hb, ?_⟩
      · rw [hr, pow_succ]; ring
      · intro j hj hjk
        rcases Nat.lt_or_ge j 2 with h2 | h2
        · have : j = 1 := by omega
          subst this
          simpa using hlt
        · obtain ⟨i, rfl⟩ : ∃ i, j = i + 1 := ⟨j - 1, by omega⟩
          have := hmin i (by omega) (by omega)
          rw [pow_succ]
          have e : cur * (2 ^ i * 2) = cur * 2 * 2 ^ i := by ring
          rw [e]; exact this
    · rename_i hge
      injection h with h
      subst h
      refine ⟨1, le_refl _, by simp, by omega, ?_⟩
      intro j hj hj1
      omega

theorem double_loop_returns (fuel : Nat) : ∀ (cur size req : Int), 1 ≤ cur →
    (size + req - cur).toNat + 1 ≤ fuel → ∃ r, double_loop fuel cur size req = .ok r := by
  induction fuel with
  | zero => intro cur size req _ h; omega
  | succ f ih =>
    intro cur size req hcur hf
    simp only [double_loop]
    split
    · rename_i hlt
      exact ih _ _ _ (by omega) (by omega)
    · exact ⟨_, rfl⟩

theorem realloc_ok_eq (junk : Nat → Byte) (block : List Byte) (n : Int) (hn : 0 < n) :
    realloc (.ok junk) block n
      = (some (block.take n.toNat ++ (List.range (n.toNat - block.length)).map junk), []) := by
  unfold realloc
  rw [if_neg (by omega), if_neg (by omega)]

theorem realloc_fail_eq (block : List Byte) (n : Int) (hn : n ≠ 0) :
    realloc .fail block n = (none, block) := by
  unfold realloc
  rw [if_neg hn]
  split <;> rfl

theorem realloc_zero_eq (heap : Alloc) (block : List Byte) :
    realloc heap block 0 = (none, []) := by
  unfold realloc
  rw [if_pos rfl]

theorem sb_resize_fail_eq (sb : stringbuilder) (n : Int) (hn : n ≠ 0) :
    sb_resize .fail sb n = .ok (sb, 0) := by
  unfold sb_resize
  rw [realloc_fail_eq _ _ hn]

/-- A zero-size resize: the block is freed, the stale pointer is put back and 0 is
returned. -/
theorem sb_resize_zero_eq (heap : Alloc) (sb : stringbuilder) :
    sb_resize heap sb 0 = .ok ({ sb with cstr := [] }, 0) := by
  unfold sb_resize
  rw [realloc_zero_eq]

/-- A successful resize of a well-formed buffer to at least its size: the written bytes are
kept, everything from `pos` on is zero. -/
theorem sb_resize_ok_eq (junk : Nat → Byte) (sb : stringbuilder) (n : Int) (hwf : wf sb)
    (hn : 0 < n) (hle : sb.pos ≤ n) :
    sb_resize (.ok junk) sb n
      = .ok ({ sb with cstr := sb.cstr.take sb.pos.toNat ++ List.replicate (n - sb.pos).toNat 0,
                       size := n, reallocs := sb.reallocs + 1 }, 1) := by
  obtain ⟨hlen, hp0, hps⟩ := hwf
  unfold sb_resize
  rw [realloc_ok_eq _ _ _ hn]
  simp only
  have hmem : memset (List.take n.toNat sb.cstr ++
        List.map junk (List.range (n.toNat - sb.cstr.length))) sb.pos 0 (n - sb.pos)
      = some (sb.cstr.take sb.pos.toNat ++ List.replicate (n - sb.pos).toNat 0) := by
    unfold memset
    have hl : (List.take n.toNat sb.cstr ++
        List.map junk (List.range (n.toNat - sb.cstr.length))).length = n.toNat := by
      simp only [List.length_append, List.length_take, List.length_map, List.length_range]
      omega
    rw [if_pos (by rw [hl]; omega)]
    have e1 : (sb.pos + (n - sb.pos)).toNat = n.toNat := by congr 1; omega
    rw [e1, List.drop_eq_nil_of_le (by rw [hl]), List.append_nil]
    congr 2
    rw [List.take_append_of_le_length (by rw [List.length_take]; omega), List.take_take]
    congr 1
    omega
  rw [hmem]

theorem realloc_some_inv {heap : Alloc} {block out old : List Byte} {n : Int}
    (h : realloc heap block n = (some out, old)) :
    0 < n ∧ heap.succeeds = true ∧ out.length = n.toNat ∧
      ∀ m : Nat, m ≤ block.length → m ≤ n.toNat → out.take m = block.take m := by
  unfold realloc at h
  split at h
  · cases h
  · split at h
    · cases h
    · cases heap with
      | fail => cases h
      | ok junk =>
        simp only [Prod.mk.injEq, Option.some.injEq] at h
        obtain ⟨h, _⟩ := h
        subst h
        refine ⟨by omega, rfl, ?_, ?_⟩
        · simp only [List.length_append, List.length_take, List.length_map, List.length_range]
          omega
        · intro m hm hmn
          rw [List.take_append_of_le_length (by rw [List.length_take]; omega), List.take_take]
          congr 1
          omega

/-- When `realloc` returns `NULL`, either the size was zero and the block is freed, or the
block is kept as it was. -/
theorem realloc_none_inv {heap : Alloc} {block old : List Byte} {n : Int}
    (h : realloc heap block n = (none, old)) :
    (n = 0 ∧ old = []) ∨ (n ≠ 0 ∧ old = block ∧ (0 < n → heap.succeeds = false)) := by
  unfold realloc at h
  split at h
  · rename_i h0
    simp only [Prod.mk.injEq, true_and] at h
    exact Or.inl ⟨h0, h.symm⟩
  · rename_i h0
    split at h
    · rename_i hneg
      simp only [Prod.mk.injEq, true_and] at h
      exact Or.inr ⟨h0, h.symm, fun hp => absurd hp (by omega)⟩
    · cases heap with
      | fail =>
        simp only [Prod.mk.injEq, true_and] at h
        exact Or.inr ⟨h0, h.symm, fun _ => rfl⟩
      | ok junk => simp at h

/-- What a returning `sb_resize` did: it put the old pointer back (result 0), its block
freed if the size was zero and kept otherwise; or it reallocated to `n` bytes and zeroed
`[pos, n)` (result 1). -/
theorem sb_resize_inv_gen {heap : Alloc} {sb s1 : stringbuilder} {n r : Int}
    (h : sb_resize heap sb n = .ok (s1, r)) :
    (r = 0 ∧ ∃ old, realloc heap sb.cstr n = (none, old) ∧ s1 = { sb with cstr := old }) ∨
    (r = 1 ∧ ∃ block zeroed old, realloc heap sb.cstr n = (some block, old) ∧
      memset block sb.pos 0 (n - sb.pos) = some zeroed ∧
      s1 = { sb with cstr := zeroed, size := n, reallocs := sb.reallocs + 1 }) := by
  unfold sb_resize at h
  split at h
  · rename_i old hr
    simp only [Except.ok.injEq, Prod.mk.injEq] at h
    exact Or.inl ⟨h.2.symm, old, hr, h.1.symm⟩
  · rename_i block old hr
    split at h
    · cases h
    · rename_i zeroed hz
      simp only [Except.ok.injEq, Prod.mk.injEq] at h
      exact Or.inr ⟨h.2.symm, block, zeroed, old, hr, hz, h.1.symm⟩

/-- What a returning `sb_resize` did when a zero size can only be asked for an empty block
(as in the calls of the appends on a well-formed buffer): nothing (result 0), or a
reallocation to `n` bytes followed by zeroing `[pos, n)` (result 1). -/
theorem sb_resize_inv {heap : Alloc} {sb s1 : stringbuilder} {n r : Int}
    (h0 : n = 0 → sb.cstr = []) (h : sb_resize heap sb n = .ok (s1, r)) :
    (r = 0 ∧ s1 = sb ∧ ((0 < n → heap.succeeds = false))) ∨
    (r = 1 ∧ ∃ block zeroed old, realloc heap sb.cstr n = (some block, old) ∧
      memset block sb.pos 0 (n - sb.pos) = some zeroed ∧
      s1 = { sb with cstr := zeroed, size := n, reallocs := sb.reallocs + 1 }) := by
  rcases sb_resize_inv_gen h with ⟨hr0, old, hre, rfl⟩ | hsucc
  · left
    rcases realloc_none_inv hre with ⟨hn, rfl⟩ | ⟨_, rfl, hf⟩
    · refine ⟨hr0, ?_, fun hp => absurd hn (by omega)⟩
      rw [← h0 hn]
    · exact ⟨hr0, rfl, hf⟩
  · exact Or.inr hsucc

theorem memset_take {block out : List Byte} {off n : Int} {c : Byte}
    (h : memset block off c n = some out) : out.take off.toNat = block.take off.toNat := by
  unfold memset at h
  split at h
  · rename_i hb
    injection h with h
    subst h
    rw [List.append_assoc, List.take_append_of_le_length (by rw [List.length_take]; omega),
      List.take_take]
    simp
  · cases h

theorem memset_inv {block out : List Byte} {off n : Int} {c : Byte}
    (h : memset block off c n = some out) : 0 ≤ off ∧ 0 ≤ n ∧ off + n ≤ block.length := by
  unfold memset at h
  split at h
  · assumption
  · cases h

/-- On a well-formed buffer of size 0 the block is empty. -/
theorem wf_empty_block {sb : stringbuilder} (hwf : wf sb) (h : sb.size = 0) :
    sb.cstr = [] := by
  have := hwf.1
  exact List.eq_nil_of_length_eq_zero (by omega)

theorem double_loop_result_zero {fuel : Nat} {cur size req r : Int}
    (h : double_loop fuel cur size req = .ok r) (hr : r = 0) : cur = 0 := by
  obtain ⟨k, _, rfl, _, _⟩ := double_loop_shape _ _ _ _ _ h
  rcases mul_eq_zero.1 hr with h1 | h1
  · exact h1
  · exact absurd h1 (by positivity)

theorem sb_resize_wf {heap : Alloc} {sb s1 : stringbuilder} {n r : Int} (hwf : wf sb)
    (h0 : n = 0 → sb.size = 0) (h : sb_resize heap sb n = .ok (s1, r)) : wf s1 := by
  rcases sb_resize_inv (fun hn => wf_empty_block hwf (h0 hn)) h with
    ⟨_, rfl, _⟩ | ⟨_, block, zeroed, old, hr, hz, rfl⟩
  · exact hwf
  · obtain ⟨hn, _, hlen, _⟩ := realloc_some_inv hr
    have hl := memset_length hz
    have hi := memset_inv hz
    refine ⟨?_, hwf.2.1, ?_⟩
    · show (zeroed.length : Int) = n
      omega
    · show sb.pos ≤ n
      omega

theorem sb_resize_pos {heap : Alloc} {sb s1 : stringbuilder} {n r : Int}
    (h : sb_resize heap sb n = .ok (s1, r)) : s1.pos = sb.pos := by
  rcases sb_resize_inv_gen h with ⟨_, old, _, rfl⟩ | ⟨_, block, zeroed, old, hr, hz, rfl⟩ <;> rfl

/-- A returning `sb_resize` keeps the bytes below `pos`, whatever the allocator answered. -/
theorem sb_resize_take {heap : Alloc} {sb s1 : stringbuilder} {n r : Int}
    (hwf : wf sb) (h0 : n = 0 → sb.size = 0) (h : sb_resize heap sb n = .ok (s1, r)) :
    s1.cstr.take sb.pos.toNat = sb.cstr.take sb.pos.toNat := by
  rcases sb_resize_inv (fun hn => wf_empty_block hwf (h0 hn)) h with
    ⟨_, rfl, _⟩ | ⟨_, block, zeroed, old, hr, hz, rfl⟩
  · rfl
  · obtain ⟨hn, _, hlen, htake⟩ := realloc_some_inv hr
    have hi := memset_inv hz
    obtain ⟨hl, hp0, hps⟩ := hwf
    show zeroed.take _ = _
    rw [memset_take hz]
    exact htake _ (by omega) (by omega)

theorem memcpy_inv {block src out : List Byte} {off n : Int}
    (h : memcpy block off src n = some out) :
    0 ≤ off ∧ 0 ≤ n ∧ off + n ≤ block.length ∧ n ≤ src.length := by
  unfold memcpy at h
  split at h
  · assumption
  · cases h

theorem memcpy_take {block src out : List Byte} {off n : Int}
    (h : memcpy block off src n = some out) :
    out.take (off + n).toNat = block.take off.toNat ++ src.take n.toNat := by
  have hi := memcpy_inv h
  unfold memcpy at h
  rw [if_pos hi] at h
  injection h with h
  subst h
  have e : (off + n).toNat = (block.take off.toNat ++ src.take n.toNat).length := by
    simp only [List.length_append, List.length_take]
    omega
  rw [e, List.take_left]

theorem memcpy_take_low {block src out : List Byte} {off n : Int}
    (h : memcpy block off src n = some out) : out.take off.toNat = block.take off.toNat := by
  have hi := memcpy_inv h
  have := congrArg (List.take off.toNat) (memcpy_take h)
  rw [List.take_take, List.take_append_of_le_length (by rw [List.length_take]; omega),
    List.take_take] at this
  simpa [show min off.toNat (off + n).toNat = off.toNat by omega] using this

theorem store_inv {block out : List Byte} {i : Int} {c : Byte}
    (h : store block i c = some out) : 0 ≤ i ∧ i < block.length := by
  unfold store at h
  split at h
  · assumption
  · cases h

theorem store_take {block out : List Byte} {i : Int} {c : Byte}
    (h : store block i c = some out) :
    out.take (i + 1).toNat = block.take i.toNat ++ [c] := by
  have hi := store_inv h
  unfold store at h
  rw [if_pos hi] at h
  injection h with h
  subst h
  have e : (i + 1).toNat = i.toNat + 1 := by omega
  rw [e, List.set_eq_take_append_cons_drop, if_pos (by omega),
    show block.take i.toNat ++ c :: block.drop (i.toNat + 1)
      = (block.take i.toNat ++ [c]) ++ block.drop (i.toNat + 1) by simp]
  have e2 : i.toNat + 1 = (block.take i.toNat ++ [c]).length := by
    simp only [List.length_append, List.length_take, List.length_singleton]
    omega
  rw [e2, List.take_left]

theorem store_take_low {block out : List Byte} {i : Int} {c : Byte}
    (h : store block i c = some out) : out.take i.toNat = block.take i.toNat := by
  have hi := store_inv h
  have := congrArg (List.take i.toNat) (store_take h)
  rw [List.take_take, List.take_append_of_le_length (by rw [List.length_take]; omega),
    List.take_take] at this
  simpa [show min i.toNat (i + 1).toNat = i.toNat by omega] using this

/-! ## The append calls

The lemmas of this section describe the model, which computes over unbounded integers.
`sb_append_strn_total` and `sb_append_ch_total` add the bounds under which the source, whose
arithmetic is on `int`, computes the same values, and the claims that assert a return are
stated with those bounds. -/

/-- What a returning `sb_append_strn` did: an optional resize to the size the loop computed,
then the copy at `pos`. -/
theorem sb_append_strn_inv {fuel : Nat} {heap : Alloc} {sb s1 : stringbuilder}
    {src : List Byte} {n : Int} (h : sb_append_strn fuel heap sb src n = .ok s1) :
    ∃ sb1 block,
      ((¬ sb.size - sb.pos - 1 < n ∧ sb1 = sb) ∨
        (sb.size - sb.pos - 1 < n ∧ ∃ new_size r,
          double_loop fuel sb.size sb.size (n - (sb.size - sb.pos - 1)) = .ok new_size ∧
          sb_resize heap sb new_size = .ok (sb1, r))) ∧
      memcpy sb1.cstr sb1.pos src n = some block ∧
      s1 = { sb1 with cstr := block, pos := sb1.pos + n } := by
  unfold sb_append_strn at h
  simp only at h
  split at h
  · cases h
  · rename_i sb1 hg
    split at h
    · cases h
    · rename_i block hm
      injection h with h
      refine ⟨sb1, block, ?_, hm, h.symm⟩
      split at hg
      · rename_i hlt
        right
        refine ⟨hlt, ?_⟩
        split at hg
        · cases hg
        · rename_i new_size hl
          split at hg
          · cases hg
          · rename_i r hr
            injection hg with hg
            exact ⟨new_size, r.2, hl, by rw [hr, ← hg]⟩
      · rename_i hge
        injection hg with hg
        exact Or.inl ⟨hge, hg.symm⟩

/-- What a returning `sb_append_ch` did: an optional doubling, then the store at `pos`. -/
theorem sb_append_ch_inv {heap : Alloc} {sb s1 : stringbuilder} {ch : Byte}
    (h : sb_append_ch heap sb ch = .ok s1) :
    ∃ sb1 block,
      ((sb.pos ≠ sb.size ∧ sb1 = sb) ∨
        (sb.pos = sb.size ∧ ∃ r, sb_resize heap sb (sb.size * 2) = .ok (sb1, r))) ∧
      store sb1.cstr sb1.pos ch = some block ∧
      s1 = { sb1 with cstr := block, pos := sb1.pos + 1 } := by
  unfold sb_append_ch at h
  simp only at h
  split at h
  · cases h
  · rename_i sb1 hg
    split at h
    · cases h
    · rename_i block hm
      injection h with h
      refine ⟨sb1, block, ?_, hm, h.symm⟩
      split at hg
      · rename_i heq
        right
        refine ⟨heq, ?_⟩
        unfold sb_double_size at hg
        split at hg
        · cases hg
        · rename_i r hr
          injection hg with hg
          exact ⟨r.2, by rw [hr, ← hg]⟩
      · rename_i hne
        injection hg with hg
        exact Or.inl ⟨hne, hg.symm⟩

/-- Bulk append when the free space suffices: no reallocation, the bytes are copied at
`pos`. -/
theorem sb_append_strn_fit_eq (fuel : Nat) (heap : Alloc) (sb : stringbuilder)
    (src : List Byte) (n : Int) (hwf : wf sb) (hn : 0 ≤ n) (hsrc : n ≤ src.length)
    (hfit : ¬ sb.size - sb.pos - 1 < n) :
    sb_append_strn fuel heap sb src n
      = .ok { cstr := sb.cstr.take sb.pos.toNat ++ src.take n.toNat
                        ++ sb.cstr.drop (sb.pos + n).toNat,
              pos := sb.pos + n, size := sb.size, reallocs := sb.reallocs } := by
  obtain ⟨hlen, hp0, hps⟩ := hwf
  unfold sb_append_strn
  simp only [if_neg hfit]
  unfold memcpy
  rw [if_pos ⟨hp0, hn, by omega, hsrc⟩]

/-- Bulk append when the free space does not suffice and `realloc` succeeds: the size is
doubled the least positive number of times that makes room, the written bytes are kept,
the new bytes follow and the rest of the block is zero. -/
theorem sb_append_strn_grow_eq (fuel : Nat) (junk : Nat → Byte) (sb : stringbuilder)
    (src : List Byte) (n : Int) (hwf : wf sb) (hsize : 1 ≤ sb.size) (hn : 0 ≤ n)
    (hsrc : n ≤ src.length) (hgrow : sb.size - sb.pos - 1 < n)
    (hfuel : (sb.pos + n + 1).toNat ≤ fuel) :
    ∃ k : Nat, 1 ≤ k ∧ sb.pos + n + 1 ≤ sb.size * 2 ^ k ∧
      (∀ j : Nat, 1 ≤ j → j < k → sb.size * 2 ^ j < sb.pos + n + 1) ∧
      sb_append_strn fuel (.ok junk) sb src n
        = .ok { cstr := sb.cstr.take sb.pos.toNat ++ src.take n.toNat
                          ++ List.replicate (sb.size * 2 ^ k - sb.pos - n).toNat 0,
                pos := sb.pos + n, size := sb.size * 2 ^ k,
                reallocs := sb.reallocs + 1 } := by
  obtain ⟨hlen, hp0, hps⟩ := id hwf
  obtain ⟨r, hr⟩ := double_loop_returns fuel sb.size sb.size (n - (sb.size - sb.pos - 1))
    hsize (by omega)
  obtain ⟨k, hk, hrk, hbound, hmin⟩ := double_loop_shape _ _ _ _ _ hr
  have hb : sb.size + (n - (sb.size - sb.pos - 1)) = sb.pos + n + 1 := by ring
  rw [hb] at hbound hmin
  subst hrk
  refine ⟨k, hk, hbound, hmin, ?_⟩
  unfold sb_append_strn
  simp only [if_pos hgrow, hr]
  rw [sb_resize_ok_eq junk sb _ hwf (by omega) (by omega)]
  simp only
  unfold memcpy
  have hl : (sb.cstr.take sb.pos.toNat
      ++ List.replicate (sb.size * 2 ^ k - sb.pos).toNat (0 : Byte)).length
      = (sb.size * 2 ^ k).toNat := by
    simp only [List.length_append, List.length_take, List.length_replicate]
    omega
  rw [if_pos ⟨hp0, hn, by rw [hl]; omega, hsrc⟩]
  have ht : (sb.cstr.take sb.pos.toNat).length = sb.pos.toNat := by
    rw [List.length_take]; omega
  have htake : (sb.cstr.take sb.pos.toNat
      ++ List.replicate (sb.size * 2 ^ k - sb.pos).toNat (0 : Byte)).take sb.pos.toNat
      = sb.cstr.take sb.pos.toNat := by
    rw [List.take_append_of_le_length (by omega), List.take_take, Nat.min_self]
  have hdrop : (sb.cstr.take sb.pos.toNat
      ++ List.replicate (sb.size * 2 ^ k - sb.pos).toNat (0 : Byte)).drop (sb.pos + n).toNat
      = List.replicate (sb.size * 2 ^ k - sb.pos - n).toNat 0 := by
    have e : (sb.pos + n).toNat = (sb.cstr.take sb.pos.toNat).length + n.toNat := by
      rw [ht]; omega
    rw [e, List.drop_append, List.drop_replicate]
    congr 1
    omega
  rw [htake, hdrop]

/-- Single-byte append when `pos` is not `size`: no reallocation, the byte is stored at
`pos`. -/
theorem sb_append_ch_fit_eq (heap : Alloc) (sb : stringbuilder) (ch : Byte) (hwf : wf sb)
    (hne : sb.pos ≠ sb.size) :
    sb_append_ch heap sb ch
      = .ok { cstr := sb.cstr.set sb.pos.toNat ch, pos := sb.pos + 1, size := sb.size,
              reallocs := sb.reallocs } := by
  obtain ⟨hlen, hp0, hps⟩ := hwf
  unfold sb_append_ch
  simp only [if_neg hne]
  unfold store
  rw [if_pos ⟨hp0, by omega⟩]

/-- Single-byte append on a full block when `realloc` succeeds: one doubling, then the byte
is stored at `pos`. -/
theorem sb_append_ch_grow_eq (junk : Nat → Byte) (sb : stringbuilder) (ch : Byte)
    (hwf : wf sb) (hsize : 1 ≤ sb.size) (hfull : sb.pos = sb.size) :
    sb_append_ch (.ok junk) sb ch
      = .ok { cstr := (sb.cstr.take sb.pos.toNat
                        ++ List.replicate (sb.size * 2 - sb.pos).toNat 0).set sb.pos.toNat ch,
              pos := sb.pos + 1, size := sb.size * 2, reallocs := sb.reallocs + 1 } := by
  obtain ⟨hlen, hp0, hps⟩ := id hwf
  unfold sb_append_ch sb_double_size
  simp only [if_pos hfull]
  rw [sb_resize_ok_eq junk sb _ hwf (by omega) (by omega)]
  simp only
  unfold store
  have hl : (sb.cstr.take sb.pos.toNat
      ++ List.replicate (sb.size * 2 - sb.pos).toNat (0 : Byte)).length
      = (sb.size * 2).toNat := by
    simp only [List.length_append, List.length_take, List.length_replicate]
    omega
  rw [if_pos ⟨hp0, by rw [hl]; omega⟩]

theorem sb_append_strn_wf {fuel : Nat} {heap : Alloc} {sb s1 : stringbuilder}
    {src : List Byte} {n : Int} (hwf : wf sb)
    (h : sb_append_strn fuel heap sb src n = .ok s1) : wf s1 := by
  obtain ⟨sb1, block, hg, hm, rfl⟩ := sb_append_strn_inv h
  have hwf1 : wf sb1 := by
    rcases hg with ⟨_, rfl⟩ | ⟨_, _, _, hl0, hr⟩
    · exact hwf
    · exact sb_resize_wf hwf (double_loop_result_zero hl0) hr
  obtain ⟨hlen, hp0, hps⟩ := hwf1
  have hi := memcpy_inv hm
  have hl := memcpy_length hm
  refine ⟨?_, ?_, ?_⟩
  · show (block.length : Int) = sb1.size
    omega
  · show 0 ≤ sb1.pos + n
    omega
  · show sb1.pos + n ≤ sb1.size
    omega

theorem sb_append_ch_wf {heap : Alloc} {sb s1 : stringbuilder} {ch : Byte} (hwf : wf sb)
    (h : sb_append_ch heap sb ch = .ok s1) : wf s1 := by
  obtain ⟨sb1, block, hg, hm, rfl⟩ := sb_append_ch_inv h
  have hwf1 : wf sb1 := by
    rcases hg with ⟨_, rfl⟩ | ⟨_, _, hr⟩
    · exact hwf
    · exact sb_resize_wf hwf (fun h => by omega) hr
  obtain ⟨hlen, hp0, hps⟩ := hwf1
  have hi := store_inv hm
  have hl := store_length hm
  refine ⟨?_, ?_, ?_⟩
  · show (block.length : Int) = sb1.size
    omega
  · show 0 ≤ sb1.pos + 1
    omega
  · show sb1.pos + 1 ≤ sb1.size
    omega

theorem sb_reset_inv {sb s1 : stringbuilder} (h : sb_reset sb = .ok s1) :
    ∃ block, memset sb.cstr 0 0 sb.size = some block ∧
      s1 = { sb with pos := 0, cstr := block } := by
  unfold sb_reset at h
  split at h
  · cases h
  · rename_i block hm
    injection h with h
    exact ⟨block, hm, h.symm⟩

theorem sb_reset_wf {sb s1 : stringbuilder} (hwf : wf sb) (h : sb_reset sb = .ok s1) :
    wf s1 := by
  obtain ⟨block, hm, rfl⟩ := sb_reset_inv h
  have hl := memset_length hm
  have hi := memset_inv hm
  obtain ⟨hlen, hp0, hps⟩ := hwf
  refine ⟨?_, ?_, ?_⟩
  · show (block.length : Int) = sb.size
    omega
  · show (0 : Int) ≤ 0
    omega
  · show (0 : Int) ≤ sb.size
    omega

theorem sb_append_str_inv {fuel : Nat} {heap : Alloc} {sb s1 : stringbuilder}
    {src : List Byte} (h : sb_append_str fuel heap sb src = .ok s1) :
    ∃ n, strlen src = some n ∧ sb_append_strn fuel heap sb src n = .ok s1 := by
  unfold sb_append_str at h
  split at h
  · cases h
  · rename_i n hn
    exact ⟨n, hn, h⟩

theorem step_double_size_inv {fuel : Nat} {heap : Alloc} {sb s1 : stringbuilder}
    (h : step fuel heap sb .double_size = .ok s1) :
    ∃ r, sb_resize heap sb (sb.size * 2) = .ok (s1, r) := by
  simp only [step, sb_double_size] at h
  split at h
  · cases h
  · rename_i r hr
    injection h with h
    exact ⟨r.2, by rw [hr, ← h]⟩

/-- Every returning call keeps the struct consistent with its block. -/
theorem step_wf {fuel : Nat} {heap : Alloc} {sb s1 : stringbuilder} {op : Op} (hwf : wf sb)
    (h : step fuel heap sb op = .ok s1) : wf s1 := by
  cases op with
  | reset => exact sb_reset_wf hwf h
  | append_ch ch => exact sb_append_ch_wf hwf h
  | append_strn src n => exact sb_append_strn_wf hwf h
  | append_str src =>
    obtain ⟨n, _, hn⟩ := sb_append_str_inv h
    exact sb_append_strn_wf hwf hn
  | double_size =>
    obtain ⟨r, hr⟩ := step_double_size_inv h
    exact sb_resize_wf hwf (fun h => by omega) hr

theorem run_cons_inv {fuel : Nat} {op : Op} {heap : Alloc} {rest : List (Op × Alloc)}
    {sb s2 : stringbuilder} (h : run fuel ((op, heap) :: rest) sb = .ok s2) :
    ∃ s1, step fuel heap sb op = .ok s1 ∧ run fuel rest s1 = .ok s2 := by
  simp only [run] at h
  split at h
  · cases h
  · rename_i s1 hs
    exact ⟨s1, hs, h⟩

theorem run_wf {fuel : Nat} : ∀ (calls : List (Op × Alloc)) {sb s1 : stringbuilder},
    wf sb → run fuel calls sb = .ok s1 → wf s1 := by
  intro calls
  induction calls with
  | nil =>
    intro sb s1 hwf h
    simp only [run, Except.ok.injEq] at h
    exact h ▸ hwf
  | cons c rest ih =>
    intro sb s1 hwf h
    obtain ⟨op, heap⟩ := c
    obtain ⟨s, hs, hr⟩ := run_cons_inv h
    exact ih (step_wf hwf hs) hr

/-- The size field after a returning `sb_resize`: unchanged, or the positive requested
size. -/
theorem sb_resize_size {heap : Alloc} {sb s1 : stringbuilder} {n r : Int}
    (h : sb_resize heap sb n = .ok (s1, r)) :
    (r = 0 ∧ s1.size = sb.size ∧ s1.reallocs = sb.reallocs) ∨
    (r = 1 ∧ s1.size = n ∧ 0 < n ∧ s1.reallocs = sb.reallocs + 1) := by
  rcases sb_resize_inv_gen h with ⟨h0, old, _, rfl⟩ | ⟨h1, block, zeroed, old, hr, hz, rfl⟩
  · exact Or.inl ⟨h0, rfl, rfl⟩
  · exact Or.inr ⟨h1, rfl, (realloc_some_inv hr).1, rfl⟩

theorem two_pow_scale_le {size : Int} {k : Nat} (h : 0 < size * 2 ^ k) :
    size ≤ size * 2 ^ k := by
  have h2 : (1 : Int) ≤ 2 ^ k := one_le_pow₀ (by norm_num)
  have hs : 0 < size := by
    by_contra hc
    have : size * 2 ^ k ≤ 0 := mul_nonpos_of_nonpos_of_nonneg (by omega) (by omega)
    omega
  exact le_mul_of_one_le_right (by omega) h2

theorem sb_append_strn_size_le {fuel : Nat} {heap : Alloc} {sb s1 : stringbuilder}
    {src : List Byte} {n : Int} (h : sb_append_strn fuel heap sb src n = .ok s1) :
    sb.size ≤ s1.size := by
  obtain ⟨sb1, block, hg, hm, rfl⟩ := sb_append_strn_inv h
  show sb.size ≤ sb1.size
  rcases hg with ⟨_, rfl⟩ | ⟨_, new_size, r, hl, hr⟩
  · exact le_refl _
  · obtain ⟨k, _, rfl, _, _⟩ := double_loop_shape _ _ _ _ _ hl
    rcases sb_resize_size hr with ⟨_, hs, _⟩ | ⟨_, hs, hpos, _⟩
    · omega
    · rw [hs]; exact two_pow_scale_le hpos

theorem sb_resize_double_size_le {heap : Alloc} {sb s1 : stringbuilder} {r : Int}
    (h : sb_resize heap sb (sb.size * 2) = .ok (s1, r)) : sb.size ≤ s1.size := by
  rcases sb_resize_size h with ⟨_, hs, _⟩ | ⟨_, hs, hpos, _⟩ <;> omega

theorem sb_append_ch_size_le {heap : Alloc} {sb s1 : stringbuilder} {ch : Byte}
    (h : sb_append_ch heap sb ch = .ok s1) : sb.size ≤ s1.size := by
  obtain ⟨sb1, block, hg, hm, rfl⟩ := sb_append_ch_inv h
  show sb.size ≤ sb1.size
  rcases hg with ⟨_, rfl⟩ | ⟨_, r, hr⟩
  · exact le_refl _
  · exact sb_resize_double_size_le hr

/-- The content after a returning bulk append, whatever the allocator answered: the cursor
advanced by the count, and below it the old written bytes followed by the copied ones. -/
theorem sb_append_strn_take {fuel : Nat} {heap : Alloc} {sb s1 : stringbuilder}
    {src : List Byte} {n : Int} (hwf : wf sb)
    (h : sb_append_strn fuel heap sb src n = .ok s1) :
    s1.pos = sb.pos + n ∧
    s1.cstr.take (sb.pos + n).toNat = sb.cstr.take sb.pos.toNat ++ src.take n.toNat := by
  obtain ⟨sb1, block, hg, hm, rfl⟩ := sb_append_strn_inv h
  have hp : sb1.pos = sb.pos := by
    rcases hg with ⟨_, rfl⟩ | ⟨_, _, _, hl0, hr⟩
    · rfl
    · exact sb_resize_pos hr
  have ht : sb1.cstr.take sb.pos.toNat = sb.cstr.take sb.pos.toNat := by
    rcases hg with ⟨_, rfl⟩ | ⟨_, _, _, hl0, hr⟩
    · rfl
    · exact sb_resize_take hwf (double_loop_result_zero hl0) hr
  refine ⟨?_, ?_⟩
  · show sb1.pos + n = sb.pos + n
    rw [hp]
  · show block.take _ = _
    rw [← hp, memcpy_take hm, hp, ht]

/-- The content after a returning single-byte append, whatever the allocator answered. -/
theorem sb_append_ch_take {heap : Alloc} {sb s1 : stringbuilder} {ch : Byte} (hwf : wf sb)
    (h : sb_append_ch heap sb ch = .ok s1) :
    s1.pos = sb.pos + 1 ∧
    s1.cstr.take (sb.pos + 1).toNat = sb.cstr.take sb.pos.toNat ++ [ch] := by
  obtain ⟨sb1, block, hg, hm, rfl⟩ := sb_append_ch_inv h
  have hp : sb1.pos = sb.pos := by
    rcases hg with ⟨_, rfl⟩ | ⟨_, _, hr⟩
    · rfl
    · exact sb_resize_pos hr
  have ht : sb1.cstr.take sb.pos.toNat = sb.cstr.take sb.pos.toNat := by
    rcases hg with ⟨_, rfl⟩ | ⟨_, _, hr⟩
    · rfl
    · exact sb_resize_take hwf (fun h => by omega) hr
  refine ⟨?_, ?_⟩
  · show sb1.pos + 1 = sb.pos + 1
    rw [hp]
  · show block.take _ = _
    rw [← hp, store_take hm, hp, ht]

/-- The doubling loop stops at or below twice the length to reach: with `k` the least
exponent `≥ 1` for which `size * 2 ^ k` reaches `bound`, and `size` below `bound`. -/
theorem loop_result_le {size bound : Int} {k : Nat} (hk : 1 ≤ k) (hlt : size < bound)
    (hmin : ∀ j : Nat, 1 ≤ j → j < k → size * 2 ^ j < bound) :
    size * 2 ^ k ≤ (bound - 1) * 2 := by
  obtain ⟨i, rfl⟩ : ∃ i, k = i + 1 := ⟨k - 1, by omega⟩
  rw [pow_succ, ← mul_assoc]
  rcases Nat.eq_zero_or_pos i with h0 | hpos
  · subst h0
    rw [pow_zero, mul_one]
    omega
  · have := hmin i hpos (by omega)
    omega

theorem scale_pow_mono {size : Int} {j k : Nat} (hs : 0 ≤ size) (hjk : j ≤ k) :
    size * 2 ^ j ≤ size * 2 ^ k :=
  mul_le_mul_of_nonneg_left (pow_le_pow_right₀ (by norm_num) hjk) hs

/-- The bulk append on a block of at least one byte, with a succeeding `realloc`, enough fuel
and within the `int` range: it returns, leaves room for the terminator, and the values it
computed are `int`s. -/
theorem sb_append_strn_total (fuel : Nat) (junk : Nat → Byte) (sb : stringbuilder)
    (src : List Byte) (n : Int) (hwf : wf sb) (hsize : 1 ≤ sb.size) (hn : 0 ≤ n)
    (hsrc : n ≤ src.length) (hrange : strn_in_int_range sb n)
    (hfuel : (sb.pos + n + 1).toNat ≤ fuel) :
    ∃ s1, sb_append_strn fuel (.ok junk) sb src n = .ok s1 ∧ s1.pos = sb.pos + n ∧
      s1.pos < s1.size ∧ s1.size ≤ INT_MAX ∧ s1.reallocs ≤ INT_MAX ∧
      ((sb.size - sb.pos - 1 < n ∧ sb.size * 2 ≤ s1.size ∧ s1.reallocs = sb.reallocs + 1) ∨
        (¬ sb.size - sb.pos - 1 < n ∧ s1.size = sb.size ∧ s1.reallocs = sb.reallocs)) := by
  obtain ⟨hmax, hre, hgr⟩ := hrange
  by_cases hg : sb.size - sb.pos - 1 < n
  · obtain ⟨k, hk, hb, hmin, he⟩ :=
      sb_append_strn_grow_eq fuel junk sb src n hwf hsize hn hsrc hg hfuel
    obtain ⟨h2, hre1⟩ := hgr hg
    have hle := loop_result_le hk (show sb.size < sb.pos + n + 1 by omega) hmin
    have h1 : sb.size * 2 ^ 1 ≤ sb.size * 2 ^ k := scale_pow_mono (by omega) hk
    rw [pow_one] at h1
    refine ⟨_, he, rfl, ?_, ?_, ?_, Or.inl ⟨hg, h1, rfl⟩⟩
    · show sb.pos + n < sb.size * 2 ^ k
      omega
    · show sb.size * 2 ^ k ≤ INT_MAX
      omega
    · show sb.reallocs + 1 ≤ INT_MAX
      omega
  · refine ⟨_, sb_append_strn_fit_eq fuel _ sb src n hwf hn hsrc hg, rfl, ?_, hmax, hre,
      Or.inr ⟨hg, rfl, rfl⟩⟩
    show sb.pos + n < sb.size
    omega

/-- The single-byte append on a block of at least one byte, with a succeeding `realloc` and
within the `int` range: it returns and the values it computed are `int`s. -/
theorem sb_append_ch_total (junk : Nat → Byte) (sb : stringbuilder) (ch : Byte)
    (hwf : wf sb) (hsize : 1 ≤ sb.size) (hrange : ch_in_int_range sb) :
    ∃ s1, sb_append_ch (.ok junk) sb ch = .ok s1 ∧ s1.pos = sb.pos + 1 ∧
      s1.size ≤ INT_MAX ∧ s1.reallocs ≤ INT_MAX ∧ s1.pos ≤ INT_MAX ∧
      ((sb.pos = sb.size ∧ s1.size = sb.size * 2 ∧ s1.reallocs = sb.reallocs + 1) ∨
        (sb.pos ≠ sb.size ∧ s1.size = sb.size ∧ s1.reallocs = sb.reallocs)) := by
  obtain ⟨hmax, hre, hgr⟩ := hrange
  obtain ⟨hlen, hp0, hps⟩ := id hwf
  by_cases hg : sb.pos = sb.size
  · obtain ⟨h2, hre1⟩ := hgr hg
    refine ⟨_, sb_append_ch_grow_eq junk sb ch hwf hsize hg, rfl, h2, ?_, ?_,
      Or.inl ⟨hg, rfl, rfl⟩⟩
    · show sb.reallocs + 1 ≤ INT_MAX
      omega
    · show sb.pos + 1 ≤ INT_MAX
      omega
  · refine ⟨_, sb_append_ch_fit_eq _ sb ch hwf hg, rfl, hmax, hre, ?_, Or.inr ⟨hg, rfl, rfl⟩⟩
    show sb.pos + 1 ≤ INT_MAX
    omega

/-! ## Claims C1 to C10 -/

theorem total_length_cons (c : List Byte × (Nat → Byte))
    (rest : List (List Byte × (Nat → Byte))) :
    total_length (c :: rest) = c.1.length + total_length rest := by
  simp [total_length]

theorem total_length_nonneg (chunks : List (List Byte × (Nat → Byte))) :
    0 ≤ total_length chunks := by
  unfold total_length
  apply List.sum_nonneg
  intro x hx
  obtain ⟨a, _, rfl⟩ := List.mem_map.1 hx
  exact Int.natCast_nonneg _

theorem run_append_chunks (fuel : Nat) : ∀ (chunks : List (List Byte × (Nat → Byte)))
    (sb : stringbuilder), wf sb → 1 ≤ sb.size → sb.size ≤ INT_MAX →
    sb.reallocs < sb.size → (sb.pos + total_length chunks) * 2 ≤ INT_MAX →
    (sb.pos + total_length chunks + 1).toNat ≤ fuel →
    ∃ s1, run fuel (append_chunks chunks) sb = .ok s1 ∧
      s1.pos = sb.pos + total_length chunks ∧
      s1.cstr.take s1.pos.toNat = sb.cstr.take sb.pos.toNat ++ concat_chunks chunks ∧
      s1.size ≤ INT_MAX ∧ s1.reallocs < s1.size := by
  intro chunks
  induction chunks with
  | nil =>
    intro sb _ _ hmax hre _ _
    refine ⟨sb, rfl, ?_, ?_, hmax, hre⟩
    · simp [total_length]
    · simp [concat_chunks]
  | cons c rest ih =>
    intro sb hwf hsize hmax hre hrange hfuel
    have htot := total_length_cons c rest
    have hnn := total_length_nonneg rest
    have hp0 := hwf.2.1
    rw [htot] at hfuel hrange
    obtain ⟨s, hs, hp, hlt, hmax1, hre1, hcase⟩ := sb_append_strn_total fuel c.2 sb c.1
      c.1.length hwf hsize (Int.natCast_nonneg _) (le_refl _)
      ⟨hmax, by omega, fun _ => ⟨by omega, by omega⟩⟩ (by omega)
    obtain ⟨_, ht⟩ := sb_append_strn_take hwf hs
    have hwf1 := sb_append_strn_wf hwf hs
    have hsz := sb_append_strn_size_le hs
    have hre2 : s.reallocs < s.size := by
      rcases hcase with ⟨_, h2, hr⟩ | ⟨_, h2, hr⟩ <;> omega
    obtain ⟨s1, hr, hp1, ht1, hmax2, hre3⟩ := ih s hwf1 (by omega) hmax1 hre2
      (by rw [hp]; omega) (by rw [hp]; omega)
    refine ⟨s1, ?_, ?_, ?_, hmax2, hre3⟩
    · simp only [append_chunks, List.map_cons, run, step, hs]
      exact hr
    · rw [hp1, hp, htot]; ring
    · rw [ht1, hp, ht]
      simp [concat_chunks]

/-- Claim C1 (append/read round trip).  On a buffer created by `sb_new_with_size n` with
`n ≥ 1`, appending any list of chunks in order with `sb_append_strn`, each count being the
chunk's length and every `realloc` succeeding, returns (given fuel for the doubling loops),
and then `pos` is the sum of the chunk lengths and the first `pos` bytes of `cstr` are the
concatenation of the chunks.  The sizes stay within the `int` range: `n` is an `int` and so
is twice the sum of the chunk lengths, the most a doubling loop of the run reaches; the final
`size` and `reallocs`, which no value computed in the run exceeds, are `int`s. -/
theorem append_read_round_trip (n : Int) (hn : 1 ≤ n) (hmax : n ≤ INT_MAX)
    (chunks : List (List Byte × (Nat → Byte)))
    (hrange : total_length chunks * 2 ≤ INT_MAX) (fuel : Nat)
    (hfuel : (total_length chunks + 1).toNat ≤ fuel) :
    ∃ sb0 sb, sb_new_with_size n = .ok sb0 ∧
      run fuel (append_chunks chunks) sb0 = .ok sb ∧
      sb.pos = total_length chunks ∧
      sb.cstr.take sb.pos.toNat = concat_chunks chunks ∧
      sb.size ≤ INT_MAX ∧ sb.reallocs ≤ INT_MAX := by
  have hnew : sb_new_with_size n
      = .ok { cstr := List.replicate n.toNat 0, pos := 0, size := n, reallocs := 0 } := by
    unfold sb_new_with_size
    rw [if_neg (by omega)]
  have hwf : wf { cstr := List.replicate n.toNat 0, pos := 0, size := n, reallocs := 0 } := by
    refine ⟨?_, le_refl _, ?_⟩
    · show ((List.replicate n.toNat (0 : Byte)).length : Int) = n
      rw [List.length_replicate]; omega
    · show (0 : Int) ≤ n
      omega
  obtain ⟨s1, hr, hp, ht, hmax1, hre1⟩ := run_append_chunks fuel chunks _ hwf hn hmax
    (show (0 : Int) < n by omega)
    (by show ((0 : Int) + total_length chunks) * 2 ≤ INT_MAX; rw [zero_add]; exact hrange)
    (by show ((0 : Int) + total_length chunks + 1).toNat ≤ fuel; rw [zero_add]; exact hfuel)
  refine ⟨_, s1, hnew, hr, ?_, ?_, hmax1, by omega⟩
  · rw [hp]; show (0 : Int) + _ = _; rw [zero_add]
  · rw [ht]; simp

/-- Instance of C1: three chunks, one of them empty and one holding a zero byte, on a 2-byte
buffer. -/
theorem append_read_round_trip_witness :
    ∃ sb0 sb, sb_new_with_size 2 = .ok sb0 ∧
      run 8 (append_chunks [([104, 105], fun _ => 7), ([], fun _ => 7),
        ([33, 0, 63], fun _ => 9)]) sb0 = .ok sb ∧
      sb.pos = total_length [([104, 105], fun _ => 7), ([], fun _ => 7),
        ([33, 0, 63], fun _ => 9)] ∧
      sb.cstr.take sb.pos.toNat = concat_chunks [([104, 105], fun _ => 7), ([], fun _ => 7),
        ([33, 0, 63], fun _ => 9)] ∧
      sb.size ≤ INT_MAX ∧ sb.reallocs ≤ INT_MAX :=
  append_read_round_trip 2 (by decide) (by decide) _ (by decide) 8 (by decide)

theorem step_size_le {fuel : Nat} {heap : Alloc} {sb s1 : stringbuilder} {op : Op}
    (h : step fuel heap sb op = .ok s1) : sb.size ≤ s1.size := by
  cases op with
  | reset =>
    obtain ⟨block, _, rfl⟩ := sb_reset_inv h
    exact le_refl _
  | append_ch ch => exact sb_append_ch_size_le h
  | append_strn src n => exact sb_append_strn_size_le h
  | append_str src =>
    obtain ⟨n, _, hn⟩ := sb_append_str_inv h
    exact sb_append_strn_size_le hn
  | double_size =>
    obtain ⟨r, hr⟩ := step_double_size_inv h
    exact sb_resize_double_size_le hr

theorem run_size_le {fuel : Nat} : ∀ (calls : List (Op × Alloc)) {sb s1 : stringbuilder},
    run fuel calls sb = .ok s1 → sb.size ≤ s1.size := by
  intro calls
  induction calls with
  | nil =>
    intro sb s1 h
    simp only [run, Except.ok.injEq] at h
    rw [h]
  | cons c rest ih =>
    intro sb s1 h
    obtain ⟨op, heap⟩ := c
    obtain ⟨s, hs, hr⟩ := run_cons_inv h
    exact le_trans (step_size_le hs) (ih hr)

/-- Claim C2 (capacity invariant), evaluated where it breaks.  Creating a buffer of 2 bytes and
appending two bytes with `sb_append_ch` (no `realloc` is reached, the guard being
`pos == size`) returns a buffer with `pos = 2 = size`, so `size ≥ pos + 1` is false. -/
theorem capacity_invariant_broken_by_append_ch :
    ∃ sb0 sb, sb_new_with_size 2 = .ok sb0 ∧
      run 0 [(.append_ch 97, .ok fun _ => 0), (.append_ch 98, .ok fun _ => 0)] sb0 = .ok sb ∧
      sb.pos = 2 ∧ sb.size = 2 ∧ ¬ (sb.size ≥ sb.pos + 1) :=
  ⟨_, _, rfl, rfl, rfl, rfl, by decide⟩

/-- Claim C3 (terminator-guaranteed view), evaluated where it breaks.  Creating a buffer of 1
byte and appending one byte with `sb_append_ch` returns the block `[97]` with `pos = 1`:
offset `pos` is outside the block and the block holds no zero byte, so `sb_cstring(sb)` is
not a NUL-terminated string (`strlen` reads past the block). -/
theorem view_unterminated_after_append_ch :
    ∃ sb0 sb, sb_new_with_size 1 = .ok sb0 ∧
      run 0 [(.append_ch 97, .ok fun _ => 0)] sb0 = .ok sb ∧
      sb.cstr = [97] ∧ sb.pos = 1 ∧ sb.cstr.get? sb.pos.toNat = none ∧
      strlen sb.cstr = none :=
  ⟨_, _, rfl, rfl, rfl, rfl, rfl, rfl⟩

/-- Claim C4 (allocation-failure safety of append), evaluated where it breaks.  On the
well-formed buffer `"ab\0\0"` (`pos = 2`, `size = 4`) the call `sb_append_strn(sb, "cd", 2)`
triggers growth (`4 - 2 - 1 < 2`); with `realloc` failing `sb_resize` returns 0 and leaves the
buffer as it was, but the append drops that result and copies anyway: it returns the block
`"abcd"` with `pos = 4`, so length and content changed and nothing is reported.  With one
more byte the copy runs past the block, and so does the store of `sb_append_ch` on a full
block whose `realloc` fails. -/
theorem append_alloc_failure_changes_buffer :
    wf ⟨[97, 98, 0, 0], 2, 4, 0⟩ ∧ (4 : Int) - 2 - 1 < 2 ∧
    sb_resize .fail ⟨[97, 98, 0, 0], 2, 4, 0⟩ 8 = .ok (⟨[97, 98, 0, 0], 2, 4, 0⟩, 0) ∧
    sb_append_strn 1 .fail ⟨[97, 98, 0, 0], 2, 4, 0⟩ [99, 100] 2
      = .ok ⟨[97, 98, 99, 100], 4, 4, 0⟩ ∧
    (⟨[97, 98, 99, 100], 4, 4, 0⟩ : stringbuilder).pos ≠ 2 ∧
    (⟨[97, 98, 99, 100], 4, 4, 0⟩ : stringbuilder).cstr ≠ [97, 98, 0, 0] ∧
    sb_append_strn 1 .fail ⟨[97, 98, 0, 0], 2, 4, 0⟩ [99, 100, 101] 3 = .error .undefined ∧
    sb_double_size .fail ⟨[97, 98], 2, 2, 0⟩ = .ok (⟨[97, 98], 2, 2, 0⟩, 0) ∧
    sb_append_ch .fail ⟨[97, 98], 2, 2, 0⟩ 99 = .error .undefined :=
  ⟨by decide, by decide, rfl, rfl, by decide, by decide, rfl, rfl, rfl⟩

/-- Claim C5 (resize failure is atomic and reported), evaluated where it breaks.  A resize to
zero bytes makes `realloc` free the block and return `NULL`; `sb_resize` takes that for a
failure, puts the stale pointer back and returns 0: on the buffer `"ab\0\0"` the stored
bytes are gone although 0 was returned.  The interface gets there from
`sb_new_with_size(0)`: `sb_double_size` asks for `0 * 2` bytes and returns 0, and the store
of `sb_append_ch` that follows goes through the stale pointer. -/
theorem resize_to_zero_frees_block :
    sb_resize .fail ⟨[97, 98, 0, 0], 2, 4, 0⟩ 0 = .ok (⟨[], 2, 4, 0⟩, 0) ∧
    sb_resize (.ok fun _ => 7) ⟨[97, 98, 0, 0], 2, 4, 0⟩ 0 = .ok (⟨[], 2, 4, 0⟩, 0) ∧
    (⟨[], 2, 4, 0⟩ : stringbuilder).cstr ≠ [97, 98, 0, 0] ∧
    (∃ sb0, sb_new_with_size 0 = .ok sb0 ∧ sb0.pos = sb0.size ∧ sb0.size * 2 = 0 ∧
      realloc (.ok fun _ => 7) sb0.cstr (sb0.size * 2) = (none, []) ∧
      sb_double_size (.ok fun _ => 7) sb0 = .ok (sb0, 0) ∧
      sb_append_ch (.ok fun _ => 7) sb0 97 = .error .undefined) :=
  ⟨rfl, rfl, by decide, _, rfl, rfl, rfl, rfl, rfl, rfl⟩

/-- Claim C6 (growth policy of the bulk append).  On a buffer with `size ≥ 1` and
`0 ≤ pos ≤ size`, when `size - pos - 1 < count`, `realloc` succeeds and twice the length to
reach is an `int`, `sb_append_strn` returns with the new size `size * 2 ^ k`, `k` being the
least exponent `≥ 1` with `size * 2 ^ k ≥ pos + count + 1`; every doubled value, the bound of
the loop and the incremented counter are `int`s.  And: creating with capacity 4, appending
`"ab"` and then `"cdef"` returns length 6, capacity 8, one reallocation and the view
`"abcdef"`. -/
theorem bulk_append_growth_policy :
    (∀ (fuel : Nat) (junk : Nat → Byte) (sb : stringbuilder) (src : List Byte) (count : Int),
      wf sb → 1 ≤ sb.size → 0 ≤ count → count ≤ src.length →
      sb.size - sb.pos - 1 < count → strn_in_int_range sb count →
      (sb.pos + count + 1).toNat ≤ fuel →
      ∃ s1 k, sb_append_strn fuel (.ok junk) sb src count = .ok s1 ∧
        1 ≤ k ∧ s1.size = sb.size * 2 ^ k ∧ sb.pos + count + 1 ≤ sb.size * 2 ^ k ∧
        (∀ j : Nat, 1 ≤ j → j < k → sb.size * 2 ^ j < sb.pos + count + 1) ∧
        (∀ j : Nat, j ≤ k → sb.size * 2 ^ j ≤ INT_MAX) ∧
        sb.pos + count + 1 ≤ INT_MAX ∧ s1.reallocs ≤ INT_MAX) ∧
    (∃ sb0 sb, sb_new_with_size 4 = .ok sb0 ∧
      run 1 [(.append_str [97, 98, 0], .ok fun _ => 0),
             (.append_str [99, 100, 101, 102, 0], .ok fun _ => 0)] sb0 = .ok sb ∧
      sb.pos = 6 ∧ sb.size = 8 ∧ sb.reallocs = 1 ∧
      sb.cstr.take sb.pos.toNat = [97, 98, 99, 100, 101, 102] ∧
      sb.cstr.get? sb.pos.toNat = some 0) := by
  refine ⟨?_, ⟨_, _, rfl, rfl, rfl, rfl, rfl, rfl, rfl⟩⟩
  intro fuel junk sb src count hwf hsize hcount hsrc hgrow hrange hfuel
  obtain ⟨k, hk, hb, hmin, he⟩ :=
    sb_append_strn_grow_eq fuel junk sb src count hwf hsize hcount hsrc hgrow hfuel
  obtain ⟨_, _, hgr⟩ := hrange
  obtain ⟨h2, hre⟩ := hgr hgrow
  have hle := loop_result_le hk (show sb.size < sb.pos + count + 1 by omega) hmin
  refine ⟨_, k, he, hk, rfl, hb, hmin, ?_, by omega, ?_⟩
  · intro j hj
    have := scale_pow_mono (show 0 ≤ sb.size by omega) hj
    omega
  · show sb.reallocs + 1 ≤ INT_MAX
    omega

/-- Instance of C6 needing two doublings: 3 bytes, `pos = 1`, 10 bytes appended. -/
theorem bulk_append_growth_policy_witness :
    ∃ s1 k, sb_append_strn 12 (.ok fun _ => 7) ⟨[97, 0, 0], 1, 3, 0⟩
        [98, 99, 100, 101, 102, 103, 104, 105, 106, 107] 10 = .ok s1 ∧
      1 ≤ k ∧ s1.size = 3 * 2 ^ k ∧ (1 : Int) + 10 + 1 ≤ 3 * 2 ^ k ∧
      (∀ j : Nat, 1 ≤ j → j < k → (3 : Int) * 2 ^ j < 1 + 10 + 1) ∧
      (∀ j : Nat, j ≤ k → (3 : Int) * 2 ^ j ≤ INT_MAX) ∧
      (1 : Int) + 10 + 1 ≤ INT_MAX ∧ s1.reallocs ≤ INT_MAX :=
  bulk_append_growth_policy.1 12 (fun _ => 7) ⟨[97, 0, 0], 1, 3, 0⟩
    [98, 99, 100, 101, 102, 103, 104, 105, 106, 107] 10
    (by decide) (by decide) (by decide) (by decide) (by decide) (by decide) (by decide)

theorem sb_resize_succeeds {heap : Alloc} {sb s1 : stringbuilder} {n r : Int}
    (hheap : heap.succeeds = true) (hn : 0 < n) (h : sb_resize heap sb n = .ok (s1, r)) :
    r = 1 ∧ s1.size = n ∧ s1.reallocs = sb.reallocs + 1 := by
  cases heap with
  | fail => simp [Alloc.succeeds] at hheap
  | ok junk =>
    rcases sb_resize_inv_gen h with ⟨_, old, hre, _⟩ | ⟨h1, _, _, _, _, _, rfl⟩
    · rw [realloc_ok_eq _ _ _ hn] at hre
      cases hre
    · exact ⟨h1, rfl, rfl⟩

theorem sb_append_strn_reallocs {fuel : Nat} {heap : Alloc} {sb s1 : stringbuilder}
    {src : List Byte} {n : Int} (hheap : heap.succeeds = true) (hsize : 1 ≤ sb.size)
    (h : sb_append_strn fuel heap sb src n = .ok s1) :
    s1.reallocs = sb.reallocs + (if sb.size - sb.pos - 1 < n then 1 else 0) := by
  obtain ⟨sb1, block, hg, hm, rfl⟩ := sb_append_strn_inv h
  show sb1.reallocs = _
  rcases hg with ⟨hfit, rfl⟩ | ⟨hgrow, new_size, r, hl, hr⟩
  · rw [if_neg hfit, add_zero]
  · obtain ⟨k, _, rfl, _, _⟩ := double_loop_shape _ _ _ _ _ hl
    have hpos : 0 < sb.size * 2 ^ k := mul_pos (by omega) (by positivity)
    rw [if_pos hgrow, (sb_resize_succeeds hheap hpos hr).2.2]

theorem sb_append_ch_reallocs {heap : Alloc} {sb s1 : stringbuilder} {ch : Byte}
    (hheap : heap.succeeds = true) (hsize : 1 ≤ sb.size)
    (h : sb_append_ch heap sb ch = .ok s1) :
    s1.reallocs = sb.reallocs + (if sb.pos = sb.size then 1 else 0) := by
  obtain ⟨sb1, block, hg, hm, rfl⟩ := sb_append_ch_inv h
  show sb1.reallocs = _
  rcases hg with ⟨hne, rfl⟩ | ⟨hfull, r, hr⟩
  · rw [if_neg hne, add_zero]
  · rw [if_pos hfull, (sb_resize_succeeds hheap (by omega) hr).2.2]

theorem step_reallocs {fuel : Nat} {heap : Alloc} {sb s1 : stringbuilder} {op : Op}
    (hheap : heap.succeeds = true) (hsize : 1 ≤ sb.size)
    (h : step fuel heap sb op = .ok s1) :
    s1.reallocs = sb.reallocs + (if grows sb op then 1 else 0) := by
  cases op with
  | reset =>
    obtain ⟨block, _, rfl⟩ := sb_reset_inv h
    simp [grows]
  | append_ch ch =>
    rw [sb_append_ch_reallocs hheap hsize h]
    simp [grows]
  | append_strn src n =>
    rw [sb_append_strn_reallocs hheap hsize h]
    simp [grows]
  | append_str src =>
    obtain ⟨n, hn, hs⟩ := sb_append_str_inv h
    rw [sb_append_strn_reallocs hheap hsize hs]
    simp [grows, hn]
  | double_size =>
    obtain ⟨r, hr⟩ := step_double_size_inv h
    rw [(sb_resize_succeeds hheap (by omega) hr).2.2]
    simp [grows]

theorem step_reallocs_le {fuel : Nat} {heap : Alloc} {sb s1 : stringbuilder} {op : Op}
    (h : step fuel heap sb op = .ok s1) : sb.reallocs ≤ s1.reallocs := by
  have hres : ∀ {sb1 : stringbuilder} {n r : Int},
      sb_resize heap sb n = .ok (sb1, r) → sb.reallocs ≤ sb1.reallocs := by
    intro sb1 n r hr
    rcases sb_resize_size hr with ⟨_, _, he⟩ | ⟨_, _, _, he⟩ <;> omega
  have hstrn : ∀ {src : List Byte} {n : Int},
      sb_append_strn fuel heap sb src n = .ok s1 → sb.reallocs ≤ s1.reallocs := by
    intro src n hs
    obtain ⟨sb1, block, hg, hm, rfl⟩ := sb_append_strn_inv hs
    show sb.reallocs ≤ sb1.reallocs
    rcases hg with ⟨_, rfl⟩ | ⟨_, _, _, hl0, hr⟩
    · exact le_refl _
    · exact hres hr
  cases op with
  | reset =>
    obtain ⟨block, _, rfl⟩ := sb_reset_inv h
    exact le_refl _
  | append_ch ch =>
    obtain ⟨sb1, block, hg, hm, rfl⟩ := sb_append_ch_inv h
    show sb.reallocs ≤ sb1.reallocs
    rcases hg with ⟨_, rfl⟩ | ⟨_, _, hr⟩
    · exact le_refl _
    · exact hres hr
  | append_strn src n => exact hstrn h
  | append_str src =>
    obtain ⟨n, _, hs⟩ := sb_append_str_inv h
    exact hstrn hs
  | double_size =>
    obtain ⟨r, hr⟩ := step_double_size_inv h
    exact hres hr

theorem run_reallocs {fuel : Nat} : ∀ (calls : List (Op × Alloc)) {sb s1 : stringbuilder},
    1 ≤ sb.size → (∀ c ∈ calls, c.2.succeeds = true) → run fuel calls sb = .ok s1 →
    s1.reallocs = sb.reallocs + growth_events fuel calls sb := by
  intro calls
  induction calls with
  | nil =>
    intro sb s1 _ _ h
    simp only [run, Except.ok.injEq] at h
    simp [growth_events, h]
  | cons c rest ih =>
    intro sb s1 hsize hall h
    obtain ⟨op, heap⟩ := c
    obtain ⟨s, hs, hr⟩ := run_cons_inv h
    have hheap : heap.succeeds = true := hall (op, heap) (List.mem_cons_self _ _)
    have hrest := ih (le_trans hsize (step_size_le hs))
      (fun c hc => hall c (List.mem_cons_of_mem _ hc)) hr
    rw [hrest, step_reallocs hheap hsize hs]
    simp only [growth_events, hs]
    ring


/-- Claim C7 (reallocation counter).  With `realloc` succeeding and within the `int` range,
`sb_append_strn` and `sb_append_ch` return with `reallocs` one higher when their guard sends
them to `sb_resize` (whatever the number of doublings) and unchanged otherwise, the new size
and counter being `int`s; `sb_reset` leaves it unchanged; no call lowers it; and after any
returning run from `sb_new_with_size n`, `n ≥ 1`, with every `realloc` succeeding,
`reallocs` is the number of calls that grew the storage. -/
theorem realloc_counter :
    (∀ (fuel : Nat) (junk : Nat → Byte) (sb : stringbuilder) (src : List Byte) (count : Int),
      wf sb → 1 ≤ sb.size → 0 ≤ count → count ≤ src.length →
      strn_in_int_range sb count → (sb.pos + count + 1).toNat ≤ fuel →
      ∃ s1, sb_append_strn fuel (.ok junk) sb src count = .ok s1 ∧
        s1.reallocs = sb.reallocs + (if sb.size - sb.pos - 1 < count then 1 else 0) ∧
        s1.size ≤ INT_MAX ∧ s1.reallocs ≤ INT_MAX) ∧
    (∀ (junk : Nat → Byte) (sb : stringbuilder) (ch : Byte), wf sb → 1 ≤ sb.size →
      ch_in_int_range sb →
      ∃ s1, sb_append_ch (.ok junk) sb ch = .ok s1 ∧
        s1.reallocs = sb.reallocs + (if sb.pos = sb.size then 1 else 0) ∧
        s1.size ≤ INT_MAX ∧ s1.reallocs ≤ INT_MAX) ∧
    (∀ sb : stringbuilder, wf sb →
      ∃ s1, sb_reset sb = .ok s1 ∧ s1.reallocs = sb.reallocs) ∧
    (∀ (fuel : Nat) (heap : Alloc) (sb s1 : stringbuilder) (op : Op),
      step fuel heap sb op = .ok s1 → sb.reallocs ≤ s1.reallocs) ∧
    (∀ (n : Int) (fuel : Nat) (calls : List (Op × Alloc)) (sb0 s1 : stringbuilder),
      1 ≤ n → sb_new_with_size n = .ok sb0 → (∀ c ∈ calls, c.2.succeeds = true) →
      run fuel calls sb0 = .ok s1 → s1.reallocs = growth_events fuel calls sb0) := by
  refine ⟨?_, ?_, ?_, ?_, ?_⟩
  · intro fuel junk sb src count hwf hsize hcount hsrc hrange hfuel
    obtain ⟨s1, hs, _, _, hmax, hre, _⟩ :=
      sb_append_strn_total fuel junk sb src count hwf hsize hcount hsrc hrange hfuel
    exact ⟨s1, hs,
      sb_append_strn_reallocs (show (Alloc.ok junk).succeeds = true from rfl) hsize hs,
      hmax, hre⟩
  · intro junk sb ch hwf hsize hrange
    obtain ⟨s1, hs, _, hmax, hre, _⟩ := sb_append_ch_total junk sb ch hwf hsize hrange
    exact ⟨s1, hs,
      sb_append_ch_reallocs (show (Alloc.ok junk).succeeds = true from rfl) hsize hs,
      hmax, hre⟩
  · intro sb hwf
    obtain ⟨hlen, hp0, hps⟩ := hwf
    unfold sb_reset memset
    rw [if_pos ⟨le_refl _, by omega, by omega⟩]
    exact ⟨_, rfl, rfl⟩
  · intro fuel heap sb s1 op h
    exact step_reallocs_le h
  · intro n fuel calls sb0 s1 hn hnew hall hrun
    unfold sb_new_with_size at hnew
    rw [if_neg (by omega)] at hnew
    injection hnew with hnew
    subst hnew
    have := run_reallocs calls (show 1 ≤ n from hn) hall hrun
    rw [this]
    show (0 : Int) + _ = _
    rw [zero_add]

/-- Instance of C7: a bulk append needing two doublings and a single-byte append on a full
block both count one reallocation. -/
theorem realloc_counter_witness :
    (∃ s1, sb_append_strn 12 (.ok fun _ => 7) ⟨[97, 0, 0], 1, 3, 5⟩
        [98, 99, 100, 101, 102, 103, 104, 105, 106, 107] 10 = .ok s1 ∧
      s1.reallocs = 5 + (if (3 : Int) - 1 - 1 < 10 then 1 else 0) ∧
      s1.size ≤ INT_MAX ∧ s1.reallocs ≤ INT_MAX) ∧
    (∃ s1, sb_append_ch (.ok fun _ => 7) ⟨[97, 98], 2, 2, 5⟩ 99 = .ok s1 ∧
      s1.reallocs = 5 + (if (2 : Int) = 2 then 1 else 0) ∧
      s1.size ≤ INT_MAX ∧ s1.reallocs ≤ INT_MAX) :=
  ⟨realloc_counter.1 12 (fun _ => 7) ⟨[97, 0, 0], 1, 3, 5⟩
      [98, 99, 100, 101, 102, 103, 104, 105, 106, 107] 10
      (by decide) (by decide) (by decide) (by decide) (by decide) (by decide),
    realloc_counter.2.1 (fun _ => 7) ⟨[97, 98], 2, 2, 5⟩ 99 (by decide) (by decide)
      (by decide)⟩

theorem sb_append_strn_take_low {fuel : Nat} {heap : Alloc} {sb s1 : stringbuilder}
    {src : List Byte} {n : Int} (hwf : wf sb)
    (h : sb_append_strn fuel heap sb src n = .ok s1) :
    s1.cstr.take sb.pos.toNat = sb.cstr.take sb.pos.toNat := by
  obtain ⟨hlen, hp0, hps⟩ := id hwf
  have hn : 0 ≤ n := by
    obtain ⟨sb1, block, _, hm, _⟩ := sb_append_strn_inv h
    exact (memcpy_inv hm).2.1
  have := congrArg (List.take sb.pos.toNat) (sb_append_strn_take hwf h).2
  rw [List.take_take, List.take_append_of_le_length (by rw [List.length_take]; omega),
    List.take_take] at this
  have e : min sb.pos.toNat (sb.pos + n).toNat = sb.pos.toNat := by omega
  rw [e] at this
  simpa using this

theorem sb_append_ch_take_low {heap : Alloc} {sb s1 : stringbuilder} {ch : Byte}
    (hwf : wf sb) (h : sb_append_ch heap sb ch = .ok s1) :
    s1.cstr.take sb.pos.toNat = sb.cstr.take sb.pos.toNat := by
  obtain ⟨hlen, hp0, hps⟩ := id hwf
  have := congrArg (List.take sb.pos.toNat) (sb_append_ch_take hwf h).2
  rw [List.take_take, List.take_append_of_le_length (by rw [List.length_take]; omega),
    List.take_take] at this
  have e : min sb.pos.toNat (sb.pos + 1).toNat = sb.pos.toNat := by omega
  rw [e] at this
  simpa using this

/-- Claim C8 (growth preserves content).  An append that triggers a successful growth of a
buffer (`size ≥ 1`, within the `int` range) returns with a larger size, which is an `int`,
and with the bytes `cstr[0..old_pos)` equal to what they were before the call; the bytes
below the old `pos` are in fact kept by every returning append. -/
theorem growth_preserves_content :
    (∀ (fuel : Nat) (junk : Nat → Byte) (sb : stringbuilder) (src : List Byte) (count : Int),
      wf sb → 1 ≤ sb.size → 0 ≤ count → count ≤ src.length →
      sb.size - sb.pos - 1 < count → strn_in_int_range sb count →
      (sb.pos + count + 1).toNat ≤ fuel →
      ∃ s1, sb_append_strn fuel (.ok junk) sb src count = .ok s1 ∧ sb.size < s1.size ∧
        s1.size ≤ INT_MAX ∧ s1.reallocs ≤ INT_MAX ∧
        s1.cstr.take sb.pos.toNat = sb.cstr.take sb.pos.toNat) ∧
    (∀ (junk : Nat → Byte) (sb : stringbuilder) (ch : Byte), wf sb → 1 ≤ sb.size →
      sb.pos = sb.size → ch_in_int_range sb →
      ∃ s1, sb_append_ch (.ok junk) sb ch = .ok s1 ∧ sb.size < s1.size ∧
        s1.size ≤ INT_MAX ∧ s1.reallocs ≤ INT_MAX ∧
        s1.cstr.take sb.pos.toNat = sb.cstr.take sb.pos.toNat) ∧
    (∀ (fuel : Nat) (heap : Alloc) (sb s1 : stringbuilder) (src : List Byte) (count : Int),
      wf sb → sb_append_strn fuel heap sb src count = .ok s1 →
      s1.cstr.take sb.pos.toNat = sb.cstr.take sb.pos.toNat) ∧
    (∀ (heap : Alloc) (sb s1 : stringbuilder) (ch : Byte),
      wf sb → sb_append_ch heap sb ch = .ok s1 →
      s1.cstr.take sb.pos.toNat = sb.cstr.take sb.pos.toNat) := by
  refine ⟨?_, ?_, ?_, ?_⟩
  · intro fuel junk sb src count hwf hsize hcount hsrc hgrow hrange hfuel
    obtain ⟨s1, hs, _, _, hmax, hre, hcase⟩ :=
      sb_append_strn_total fuel junk sb src count hwf hsize hcount hsrc hrange hfuel
    refine ⟨s1, hs, ?_, hmax, hre, sb_append_strn_take_low hwf hs⟩
    rcases hcase with ⟨_, h2, _⟩ | ⟨hfit, _, _⟩
    · omega
    · exact absurd hgrow hfit
  · intro junk sb ch hwf hsize hfull hrange
    obtain ⟨s1, hs, _, hmax, hre, _, hcase⟩ := sb_append_ch_total junk sb ch hwf hsize hrange
    refine ⟨s1, hs, ?_, hmax, hre, sb_append_ch_take_low hwf hs⟩
    rcases hcase with ⟨_, h2, _⟩ | ⟨hfit, _, _⟩
    · omega
    · exact absurd hfull hfit
  · intro fuel heap sb s1 src count hwf h
    exact sb_append_strn_take_low hwf h
  · intro heap sb s1 ch hwf h
    exact sb_append_ch_take_low hwf h

/-- Instance of C8 for both appends. -/
theorem growth_preserves_content_witness :
    (∃ s1, sb_append_strn 12 (.ok fun _ => 7) ⟨[97, 0, 0], 1, 3, 0⟩
        [98, 99, 100, 101, 102, 103, 104, 105, 106, 107] 10 = .ok s1 ∧ 3 < s1.size ∧
      s1.size ≤ INT_MAX ∧ s1.reallocs ≤ INT_MAX ∧
      s1.cstr.take 1 = ([97, 0, 0] : List Byte).take 1) ∧
    (∃ s1, sb_append_ch (.ok fun _ => 7) ⟨[97, 98], 2, 2, 0⟩ 99 = .ok s1 ∧ 2 < s1.size ∧
      s1.size ≤ INT_MAX ∧ s1.reallocs ≤ INT_MAX ∧
      s1.cstr.take 2 = ([97, 98] : List Byte).take 2) :=
  ⟨growth_preserves_content.1 12 (fun _ => 7) ⟨[97, 0, 0], 1, 3, 0⟩
      [98, 99, 100, 101, 102, 103, 104, 105, 106, 107] 10
      (by decide) (by decide) (by decide) (by decide) (by decide) (by decide) (by decide),
    growth_preserves_content.2.1 (fun _ => 7) ⟨[97, 98], 2, 2, 0⟩ 99
      (by decide) (by decide) (by decide) (by decide)⟩

/-- Claim C9 (post-growth capacity bound), evaluated where it breaks.  On a buffer created with
capacity 1, the first `sb_append_ch` fills the block (`pos = size = 1`); the second one
triggers a successful growth (one reallocation, to 2 bytes) and returns `pos = 2`,
`size = 2`, so `size ≥ pos + 1` is false after the growth. -/
theorem post_growth_capacity_broken_by_append_ch :
    ∃ sb0 s1 s2, sb_new_with_size 1 = .ok sb0 ∧
      sb_append_ch (.ok fun _ => 0) sb0 97 = .ok s1 ∧ s1.pos = s1.size ∧
      sb_append_ch (.ok fun _ => 0) s1 98 = .ok s2 ∧
      s2.reallocs = s1.reallocs + 1 ∧ s2.cstr = [97, 98] ∧ s2.pos = 2 ∧ s2.size = 2 ∧
      ¬ (s2.size ≥ s2.pos + 1) :=
  ⟨_, _, _, rfl, rfl, rfl, rfl, rfl, rfl, rfl, rfl, by decide⟩

/-- Claim C10 (capacity monotonicity).  Every returning call among `sb_reset`, `sb_append_ch`,
`sb_append_strn`, `sb_append_str` and `sb_double_size`, whether its `realloc` succeeded or
failed, returns a `size` at least the one it started from; hence so does every returning
sequence of such calls. -/
theorem capacity_monotone :
    (∀ (fuel : Nat) (heap : Alloc) (sb s1 : stringbuilder) (op : Op),
      step fuel heap sb op = .ok s1 → sb.size ≤ s1.size) ∧
    (∀ (fuel : Nat) (calls : List (Op × Alloc)) (sb s1 : stringbuilder),
      run fuel calls sb = .ok s1 → sb.size ≤ s1.size) :=
  ⟨fun _ _ _ _ _ h => step_size_le h, fun _ calls _ _ h => run_size_le calls h⟩

/-- Instance of C10 on a run with failed and successful reallocations and a reset. -/
theorem capacity_monotone_witness :
    (4 : Int) ≤ (⟨[0, 0, 0, 0, 0, 0, 0, 0], 0, 8, 1⟩ : stringbuilder).size :=
  capacity_monotone.2 2
    [(.append_str [97, 98, 0], .fail), (.double_size, .fail),
     (.append_strn [99, 100, 101] 3, .ok fun _ => 7), (.append_ch 102, .fail), (.reset, .fail)]
    ⟨[0, 0, 0, 0], 0, 4, 0⟩ ⟨[0, 0, 0, 0, 0, 0, 0, 0], 0, 8, 1⟩ rfl

/-! ## Claims C11 to C20 -/

/-- Claim C11 as stated fails: `sb_new_with_size(0)` returns a buffer of capacity 0, not
`max(0, 1) = 1`. -/
theorem construction_capacity_zero :
    sb_new_with_size 0 = .ok ⟨[], 0, 0, 0⟩ ∧
    (⟨[], 0, 0, 0⟩ : stringbuilder).size ≠ max 0 1 :=
  ⟨rfl, by decide⟩

/-- Claim C11, amended.  For every requested capacity `n ≥ 0`, `sb_new_with_size n` returns a
buffer whose `size` is `n` itself (which is `max n 1` when `n ≥ 1`), whose storage is `n` zero
bytes, with `pos = 0` and `reallocs = 0`; and `sb_new()` is `sb_new_with_size(1024)`. -/
theorem construction (n : Int) (hn : 0 ≤ n) :
    (∃ sb, sb_new_with_size n = .ok sb ∧ sb.size = n ∧ (1 ≤ n → sb.size = max n 1) ∧
      sb.cstr = List.replicate n.toNat 0 ∧ (sb.cstr.length : Int) = sb.size ∧
      (∀ b ∈ sb.cstr, b = 0) ∧ sb.pos = 0 ∧ sb.reallocs = 0) ∧
    sb_new = sb_new_with_size 1024 := by
  refine ⟨⟨⟨List.replicate n.toNat 0, 0, n, 0⟩, ?_, rfl, ?_, rfl, ?_, ?_, rfl, rfl⟩, rfl⟩
  · unfold sb_new_with_size
    rw [if_neg (by omega)]
  · intro h1
    show n = max n 1
    omega
  · show ((List.replicate n.toNat (0 : Byte)).length : Int) = n
    rw [List.length_replicate]
    omega
  · intro b hb
    exact List.eq_of_mem_replicate hb

/-- Instance of the amended C11 at capacity 3. -/
theorem construction_witness :
    (∃ sb, sb_new_with_size 3 = .ok sb ∧ sb.size = 3 ∧ ((1 : Int) ≤ 3 → sb.size = max 3 1) ∧
      sb.cstr = List.replicate (3 : Int).toNat 0 ∧ (sb.cstr.length : Int) = sb.size ∧
      (∀ b ∈ sb.cstr, b = 0) ∧ sb.pos = 0 ∧ sb.reallocs = 0) ∧
    sb_new = sb_new_with_size 1024 :=
  construction 3 (by decide)

theorem strlen_of_first_zero : ∀ (src : List Byte) (n : Nat), src[n]? = some 0 →
    (∀ i, i < n → src[i]? ≠ some 0) → strlen src = some (n : Int) := by
  intro src
  induction src with
  | nil => intro n hz _; simp at hz
  | cons c rest ih =>
    intro n hz hnz
    cases n with
    | zero =>
      simp only [List.getElem?_cons_zero, Option.some.injEq] at hz
      simp [strlen, hz]
    | succ m =>
      have hc : c ≠ 0 := by
        intro hc
        exact hnz 0 (Nat.succ_pos m) (by simp [hc])
      have hrest := ih m (by simpa using hz)
        (fun i hi => by simpa using hnz (i + 1) (Nat.succ_lt_succ hi))
      simp only [strlen, if_neg hc, hrest, Option.map_some']
      congr 1

theorem strlen_inv : ∀ (src : List Byte) (n : Int), strlen src = some n →
    0 ≤ n ∧ n < src.length ∧ src[n.toNat]? = some 0 ∧
      ∀ i, i < n.toNat → src[i]? ≠ some 0 := by
  intro src
  induction src with
  | nil => intro n h; simp [strlen] at h
  | cons c rest ih =>
    intro n h
    simp only [strlen] at h
    split at h
    · rename_i hc
      injection h with h
      subst h
      refine ⟨le_refl _, by simp, by simp [hc], ?_⟩
      intro i hi
      simp at hi
    · rename_i hc
      cases hr : strlen rest with
      | none => rw [hr] at h; simp at h
      | some m =>
        rw [hr] at h
        simp only [Option.map_some', Option.some.injEq] at h
        subst h
        obtain ⟨h0, hlt, hz, hnz⟩ := ih m hr
        have e : (m + 1).toNat = m.toNat + 1 := by omega
        refine ⟨by omega, by simp only [List.length_cons]; push_cast; omega, ?_, ?_⟩
        · rw [e]; simpa using hz
        · intro i hi
          cases i with
          | zero => simpa using hc
          | succ j => simpa using hnz j (by omega)

/-- Claim C12 as stated fails on content holding a zero byte.  After `sb_new_with_size(4)` and
`sb_append_strn(sb, "a\0b", 3)` the buffer holds `"a\0b"` with `pos = 3`; `sb_make_cstring`
allocates 4 bytes and `strcpy` stops after the first zero byte, so the region is
`'a', 0` followed by two indeterminate bytes (here 7): its first `pos` bytes are not
`cstr[0..pos)` and its last byte is not the terminator. -/
theorem make_cstring_stops_at_zero_byte :
    ∃ sb0 sb, sb_new_with_size 4 = .ok sb0 ∧
      sb_append_strn 0 (.ok fun _ => 7) sb0 [97, 0, 98] 3 = .ok sb ∧
      sb.pos = 3 ∧ sb.cstr.take 3 = [97, 0, 98] ∧
      sb_make_cstring (.ok fun _ => 7) sb = .ok (sb, some [97, 0, 7, 7]) ∧
      ([97, 0, 7, 7] : List Byte).take 3 ≠ sb.cstr.take 3 ∧
      ([97, 0, 7, 7] : List Byte)[3]? ≠ some 0 :=
  ⟨_, _, rfl, rfl, rfl, rfl, rfl, by decide, by decide⟩

/-- Claim C12, amended.  `sb_make_cstring` returns the null pointer when `pos == 0`; a
returning call returns null only then and leaves the buffer unchanged; and when `pos ≠ 0`,
`malloc` succeeds and the first zero byte of the storage is the one at offset `pos` (the
written bytes hold no zero byte and the view is terminated), it returns a new region of
exactly `pos + 1` bytes: the bytes `cstr[0..pos)` followed by the terminator.  When the
first zero byte is at an offset `k ≤ pos`, the region of `pos + 1` bytes holds the storage
up to and including that zero byte, and indeterminate bytes after it. -/
theorem make_cstring :
    (∀ (heap : Alloc) (sb : stringbuilder), sb.pos = 0 →
      sb_make_cstring heap sb = .ok (sb, none)) ∧
    (∀ (heap : Alloc) (sb s1 : stringbuilder) (r : Option (List Byte)),
      sb_make_cstring heap sb = .ok (s1, r) → s1 = sb ∧ (r = none ↔ sb.pos = 0)) ∧
    (∀ (junk : Nat → Byte) (sb : stringbuilder), sb.pos ≠ 0 → 0 ≤ sb.pos →
      sb.cstr[sb.pos.toNat]? = some 0 → (∀ i, i < sb.pos.toNat → sb.cstr[i]? ≠ some 0) →
      sb_make_cstring (.ok junk) sb = .ok (sb, some (sb.cstr.take sb.pos.toNat ++ [0])) ∧
      ((sb.cstr.take sb.pos.toNat ++ [0]).length : Int) = sb.pos + 1) ∧
    (∀ (junk : Nat → Byte) (sb : stringbuilder) (k : Int), sb.pos ≠ 0 →
      strlen sb.cstr = some k → k ≤ sb.pos →
      sb_make_cstring (.ok junk) sb
        = .ok (sb, some (sb.cstr.take (k + 1).toNat
            ++ ((List.range (sb.pos + 1).toNat).map junk).drop (k + 1).toNat)) ∧
      ((sb.cstr.take (k + 1).toNat
          ++ ((List.range (sb.pos + 1).toNat).map junk).drop (k + 1).toNat).length : Int)
        = sb.pos + 1) := by
  refine ⟨?_, ?_, ?_, ?_⟩
  · intro heap sb h0
    unfold sb_make_cstring
    rw [if_pos h0]
  · intro heap sb s1 r h
    unfold sb_make_cstring at h
    split at h
    · rename_i h0
      simp only [Except.ok.injEq, Prod.mk.injEq] at h
      exact ⟨h.1.symm, by rw [← h.2]; simp [h0]⟩
    · rename_i hne
      split at h
      · cases h
      · split at h
        · cases h
        · simp only [Except.ok.injEq, Prod.mk.injEq] at h
          refine ⟨h.1.symm, ?_⟩
          rw [← h.2]
          simp [hne]
  · intro junk sb hne hp0 hz hnz
    have hlt : sb.pos.toNat < sb.cstr.length := by
      by_contra hc
      rw [List.getElem?_eq_none (by omega)] at hz
      cases hz
    have hlen : (sb.cstr.take sb.pos.toNat ++ [0]).length = sb.pos.toNat + 1 := by
      simp only [List.length_append, List.length_take, List.length_singleton]
      omega
    refine ⟨?_, by rw [hlen]; push_cast; omega⟩
    have hs : strlen sb.cstr = some sb.pos := by
      have := strlen_of_first_zero sb.cstr sb.pos.toNat hz hnz
      rwa [Int.toNat_of_nonneg hp0] at this
    unfold sb_make_cstring malloc strcpy sb_cstring
    rw [if_neg hne, if_neg (by omega)]
    simp only [hs]
    have hl : ((List.range (sb.pos + 1).toNat).map junk).length = (sb.pos + 1).toNat := by
      simp
    rw [if_pos (by rw [hl]; omega), List.drop_eq_nil_of_le (by rw [hl]), List.append_nil]
    have e : (sb.pos + 1).toNat = sb.pos.toNat + 1 := by omega
    rw [e, List.take_succ, hz]
    rfl
  · intro junk sb k hne hs hk
    obtain ⟨hk0, hklt, _, _⟩ := strlen_inv sb.cstr k hs
    have hl : ((List.range (sb.pos + 1).toNat).map junk).length = (sb.pos + 1).toNat := by
      simp
    constructor
    · unfold sb_make_cstring malloc strcpy sb_cstring
      rw [if_neg hne, if_neg (by omega)]
      simp only [hs]
      rw [if_pos (by rw [hl]; omega)]
    · simp only [List.length_append, List.length_take, List.length_drop, hl]
      omega

/-- Instance of the amended C12 on the buffer `"hi"` in a block of 4 bytes. -/
theorem make_cstring_witness :
    sb_make_cstring (.ok fun _ => 7) ⟨[104, 105, 0, 0], 2, 4, 0⟩
        = .ok (⟨[104, 105, 0, 0], 2, 4, 0⟩, some (([104, 105, 0, 0] : List Byte).take 2 ++ [0])) ∧
      (((([104, 105, 0, 0] : List Byte).take 2) ++ [0]).length : Int) = 2 + 1 :=
  make_cstring.2.2.1 (fun _ => 7) ⟨[104, 105, 0, 0], 2, 4, 0⟩ (by decide) (by decide)
    (by decide) (by decide)

theorem store_get {block out : List Byte} {i : Int} {c : Byte}
    (h : store block i c = some out) : out[i.toNat]? = some c := by
  have hi := store_inv h
  unfold store at h
  rw [if_pos hi] at h
  injection h with h
  subst h
  rw [List.getElem?_set_self (by omega)]

/-- The byte stored by a returning single-byte append is at the old `pos`. -/
theorem sb_append_ch_get {heap : Alloc} {sb s1 : stringbuilder} {ch : Byte}
    (h : sb_append_ch heap sb ch = .ok s1) : s1.cstr[sb.pos.toNat]? = some ch := by
  obtain ⟨sb1, block, hg, hm, rfl⟩ := sb_append_ch_inv h
  have hp : sb1.pos = sb.pos := by
    rcases hg with ⟨_, rfl⟩ | ⟨_, _, hr⟩
    · rfl
    · exact sb_resize_pos hr
  show block[sb.pos.toNat]? = some ch
  rw [← hp]
  exact store_get hm

/-- Claim C13 as stated fails when the reallocation fails: on the full 1-byte block `"x"`
(`pos = size = 1`) with `realloc` failing, `sb_double_size` returns 0 and leaves the size at
1, so no doubling is performed, and the store of `sb_append_ch` at index 1 is outside the
block. -/
theorem append_ch_boundary_realloc_fails :
    wf ⟨[120], 1, 1, 0⟩ ∧ (⟨[120], 1, 1, 0⟩ : stringbuilder).pos
      = (⟨[120], 1, 1, 0⟩ : stringbuilder).size ∧
    sb_double_size .fail ⟨[120], 1, 1, 0⟩ = .ok (⟨[120], 1, 1, 0⟩, 0) ∧
    store [120] 1 121 = none ∧
    sb_append_ch .fail ⟨[120], 1, 1, 0⟩ 121 = .error .undefined :=
  ⟨by decide, rfl, rfl, rfl, rfl⟩

/-- Claim C13, amended.  On a buffer with `size ≥ 1`, within the `int` range: when
`pos == size` and `realloc` succeeds, `sb_append_ch` performs one doubling (`sb_double_size`
returns 1, the size becomes `2 * size`, `reallocs` one more, both `int`s) and then writes;
when `pos < size` it leaves `size` and `reallocs` unchanged, whatever the allocator would
answer.  In both cases the call returns, the byte at the old `pos` is the appended one,
`pos` is one more and the bytes `cstr[0..old_pos)` are unchanged. -/
theorem append_ch_boundary :
    (∀ (junk : Nat → Byte) (sb : stringbuilder) (b : Byte), wf sb → 1 ≤ sb.size →
      sb.pos = sb.size → ch_in_int_range sb →
      ∃ sb1 s1, sb_double_size (.ok junk) sb = .ok (sb1, 1) ∧ sb1.size = 2 * sb.size ∧
        store sb1.cstr sb.pos b = some s1.cstr ∧
        sb_append_ch (.ok junk) sb b = .ok s1 ∧
        s1.size = 2 * sb.size ∧ s1.reallocs = sb.reallocs + 1 ∧
        s1.size ≤ INT_MAX ∧ s1.reallocs ≤ INT_MAX ∧
        s1.cstr[sb.pos.toNat]? = some b ∧ s1.pos = sb.pos + 1 ∧
        s1.cstr.take sb.pos.toNat = sb.cstr.take sb.pos.toNat) ∧
    (∀ (heap : Alloc) (sb : stringbuilder) (b : Byte), wf sb → sb.pos < sb.size →
      ch_in_int_range sb →
      ∃ s1, sb_append_ch heap sb b = .ok s1 ∧
        s1.size = sb.size ∧ s1.reallocs = sb.reallocs ∧
        s1.cstr[sb.pos.toNat]? = some b ∧ s1.pos = sb.pos + 1 ∧ s1.pos ≤ INT_MAX ∧
        s1.cstr.take sb.pos.toNat = sb.cstr.take sb.pos.toNat) := by
  refine ⟨?_, ?_⟩
  · intro junk sb b hwf hsize hfull hrange
    obtain ⟨_, _, hgr⟩ := hrange
    obtain ⟨h2, hre⟩ := hgr hfull
    have he := sb_append_ch_grow_eq junk sb b hwf hsize hfull
    have hd : sb_double_size (.ok junk) sb
        = .ok ({ sb with cstr := sb.cstr.take sb.pos.toNat
                            ++ List.replicate (sb.size * 2 - sb.pos).toNat 0,
                         size := sb.size * 2, reallocs := sb.reallocs + 1 }, 1) := by
      unfold sb_double_size
      exact sb_resize_ok_eq junk sb _ hwf (by omega) (by omega)
    refine ⟨_, _, hd, by show sb.size * 2 = 2 * sb.size; ring, ?_, he,
      by show sb.size * 2 = 2 * sb.size; ring, rfl, h2, ?_, sb_append_ch_get he, rfl,
      sb_append_ch_take_low hwf he⟩
    · obtain ⟨hlen, hp0, hps⟩ := hwf
      show store (sb.cstr.take sb.pos.toNat
        ++ List.replicate (sb.size * 2 - sb.pos).toNat 0) sb.pos b = some _
      unfold store
      rw [if_pos ⟨hp0, by
        simp only [List.length_append, List.length_take, List.length_replicate]
        omega⟩]
    · show sb.reallocs + 1 ≤ INT_MAX
      omega
  · intro heap sb b hwf hlt hrange
    have he := sb_append_ch_fit_eq heap sb b hwf (by omega)
    refine ⟨_, he, rfl, rfl, sb_append_ch_get he, rfl, ?_, sb_append_ch_take_low hwf he⟩
    show sb.pos + 1 ≤ INT_MAX
    have := hrange.1
    omega

/-- Instance of the amended C13: a full block of 2 bytes, and a block of 3 bytes with
room. -/
theorem append_ch_boundary_witness :
    (∃ sb1 s1, sb_double_size (.ok fun _ => 7) ⟨[97, 98], 2, 2, 0⟩ = .ok (sb1, 1) ∧
        sb1.size = 2 * 2 ∧ store sb1.cstr 2 99 = some s1.cstr ∧
        sb_append_ch (.ok fun _ => 7) ⟨[97, 98], 2, 2, 0⟩ 99 = .ok s1 ∧
        s1.size = 2 * 2 ∧ s1.reallocs = 0 + 1 ∧
        s1.size ≤ INT_MAX ∧ s1.reallocs ≤ INT_MAX ∧
        s1.cstr[(2 : Int).toNat]? = some 99 ∧ s1.pos = 2 + 1 ∧
        s1.cstr.take (2 : Int).toNat = ([97, 98] : List Byte).take (2 : Int).toNat) ∧
    (∃ s1, sb_append_ch .fail ⟨[97, 0, 0], 1, 3, 0⟩ 98 = .ok s1 ∧
        s1.size = 3 ∧ s1.reallocs = 0 ∧
        s1.cstr[(1 : Int).toNat]? = some 98 ∧ s1.pos = 1 + 1 ∧ s1.pos ≤ INT_MAX ∧
        s1.cstr.take (1 : Int).toNat = ([97, 0, 0] : List Byte).take (1 : Int).toNat) :=
  ⟨append_ch_boundary.1 (fun _ => 7) ⟨[97, 98], 2, 2, 0⟩ 99 (by decide) (by decide) (by decide)
      (by decide),
    append_ch_boundary.2 .fail ⟨[97, 0, 0], 1, 3, 0⟩ 98 (by decide) (by decide) (by decide)⟩

theorem sb_reset_eq (sb : stringbuilder) (hlen : (sb.cstr.length : Int) = sb.size) :
    sb_reset sb = .ok { sb with pos := 0, cstr := List.replicate sb.size.toNat 0 } := by
  unfold sb_reset memset
  rw [if_pos ⟨le_refl _, by omega, by omega⟩]
  simp only
  congr 2
  rw [show (0 : Int).toNat = 0 from rfl, List.take_zero, List.nil_append, zero_add,
    List.drop_eq_nil_of_le (by omega), List.append_nil]

/-- Claim C14 (reset postcondition and frame).  On every buffer whose block has `size` bytes,
`sb_reset` returns with `pos = 0`, every byte of `cstr[0..size)` zero, and `size`,
`reallocs` and the allocated length as before the call. -/
theorem reset_postcondition (sb : stringbuilder) (hlen : (sb.cstr.length : Int) = sb.size) :
    ∃ s1, sb_reset sb = .ok s1 ∧ s1.pos = 0 ∧
      (∀ i : Nat, (i : Int) < sb.size → s1.cstr[i]? = some 0) ∧
      s1.cstr = List.replicate sb.size.toNat 0 ∧
      s1.size = sb.size ∧ s1.reallocs = sb.reallocs ∧ s1.cstr.length = sb.cstr.length := by
  refine ⟨_, sb_reset_eq sb hlen, rfl, ?_, rfl, rfl, rfl, ?_⟩
  · intro i hi
    show (List.replicate sb.size.toNat (0 : Byte))[i]? = some 0
    rw [List.getElem?_replicate, if_pos (by omega)]
  · show (List.replicate sb.size.toNat (0 : Byte)).length = sb.cstr.length
    rw [List.length_replicate]
    omega

/-- Instance of C14 on a buffer holding `"ab"` in 3 bytes after one reallocation. -/
theorem reset_postcondition_witness :
    ∃ s1, sb_reset ⟨[97, 98, 0], 2, 3, 1⟩ = .ok s1 ∧ s1.pos = 0 ∧
      (∀ i : Nat, (i : Int) < 3 → s1.cstr[i]? = some 0) ∧
      s1.cstr = List.replicate (3 : Int).toNat 0 ∧
      s1.size = 3 ∧ s1.reallocs = 1 ∧ s1.cstr.length = ([97, 98, 0] : List Byte).length :=
  reset_postcondition ⟨[97, 98, 0], 2, 3, 1⟩ (by decide)

/-- Claim C15 (reset idempotence).  For every state, resetting twice is the same as resetting
once, on all fields; and on a buffer whose block has `size` bytes both resets return. -/
theorem reset_idempotent (sb : stringbuilder) :
    (match sb_reset sb with
      | .ok s1 => sb_reset s1
      | .error e => .error e) = sb_reset sb ∧
    ((sb.cstr.length : Int) = sb.size →
      ∃ s1, sb_reset sb = .ok s1 ∧ sb_reset s1 = .ok s1) := by
  constructor
  · cases hr : sb_reset sb with
    | error e => rfl
    | ok s1 =>
      show sb_reset s1 = .ok s1
      obtain ⟨block, hm, rfl⟩ := sb_reset_inv hr
      have hi := memset_inv hm
      have hl := memset_length hm
      have hb : block = List.replicate sb.size.toNat 0 ++ sb.cstr.drop sb.size.toNat := by
        unfold memset at hm
        rw [if_pos hi] at hm
        injection hm with hm
        rw [← hm]
        simp
      unfold sb_reset memset
      simp only
      rw [if_pos ⟨le_refl _, hi.2.1, by omega⟩]
      simp only
      congr 2
      rw [show (0 : Int).toNat = 0 from rfl, List.take_zero, List.nil_append, zero_add]
      conv_rhs => rw [hb]
      congr 1
      rw [hb, List.drop_append_of_le_length (by rw [List.length_replicate]),
        List.drop_eq_nil_of_le (by rw [List.length_replicate]), List.nil_append]
  · intro hlen
    refine ⟨_, sb_reset_eq sb hlen, ?_⟩
    have := sb_reset_eq { sb with pos := 0, cstr := List.replicate sb.size.toNat 0 }
      (by
        show ((List.replicate sb.size.toNat (0 : Byte)).length : Int) = sb.size
        rw [List.length_replicate]; omega)
    exact this

/-- Instance of C15 on a buffer holding `"ab"` in 3 bytes. -/
theorem reset_idempotent_witness :
    ∃ s1, sb_reset ⟨[97, 98, 0], 2, 3, 1⟩ = .ok s1 ∧ sb_reset s1 = .ok s1 :=
  (reset_idempotent ⟨[97, 98, 0], 2, 3, 1⟩).2 (by decide)

theorem drop_append_of_length {a b : List Byte} {k : Nat} (h : a.length = k) :
    (a ++ b).drop k = b := by
  subst h
  simp

theorem memset_drop {block out : List Byte} {off n : Int} {c : Byte}
    (h : memset block off c n = some out) :
    out.drop off.toNat = List.replicate n.toNat c ++ block.drop (off + n).toNat := by
  have hi := memset_inv h
  unfold memset at h
  rw [if_pos hi] at h
  injection h with h
  subst h
  rw [List.append_assoc]
  exact drop_append_of_length (by rw [List.length_take]; omega)

theorem memcpy_drop {block src out : List Byte} {off n : Int}
    (h : memcpy block off src n = some out) :
    out.drop (off + n).toNat = block.drop (off + n).toNat := by
  have hi := memcpy_inv h
  unfold memcpy at h
  rw [if_pos hi] at h
  injection h with h
  subst h
  exact drop_append_of_length (by
    simp only [List.length_append, List.length_take]
    omega)

theorem store_drop {block out : List Byte} {i : Int} {c : Byte}
    (h : store block i c = some out) :
    out.drop (i + 1).toNat = block.drop (i + 1).toNat := by
  have hi := store_inv h
  unfold store at h
  rw [if_pos hi] at h
  injection h with h
  subst h
  exact List.drop_set_of_lt c block (by omega)

/-- A zero tail from offset `p` is still a zero tail `k` bytes further. -/
theorem drop_replicate_advance {l : List Byte} {p m : Nat} (k : Nat)
    (h : l.drop p = List.replicate m 0) : l.drop (p + k) = List.replicate (m - k) 0 := by
  rw [← List.drop_drop, h, List.drop_replicate]

theorem sb_resize_zero_tail {heap : Alloc} {sb s1 : stringbuilder} {n r : Int}
    (hwf : wf sb) (hz : zero_tail sb) (h0 : n = 0 → sb.size = 0)
    (h : sb_resize heap sb n = .ok (s1, r)) : zero_tail s1 := by
  rcases sb_resize_inv (fun hn => wf_empty_block hwf (h0 hn)) h with
    ⟨_, rfl, _⟩ | ⟨_, block, zeroed, old, hr, hm, rfl⟩
  · exact hz
  · obtain ⟨hn, _, hlen, _⟩ := realloc_some_inv hr
    have hi := memset_inv hm
    show zeroed.drop sb.pos.toNat = List.replicate (n - sb.pos).toNat 0
    rw [memset_drop hm, List.drop_eq_nil_of_le (by omega), List.append_nil]

theorem sb_append_strn_zero_tail {fuel : Nat} {heap : Alloc} {sb s1 : stringbuilder}
    {src : List Byte} {n : Int} (hwf : wf sb) (hz : zero_tail sb)
    (h : sb_append_strn fuel heap sb src n = .ok s1) : zero_tail s1 := by
  obtain ⟨sb1, block, hg, hm, rfl⟩ := sb_append_strn_inv h
  have hz1 : zero_tail sb1 := by
    rcases hg with ⟨_, rfl⟩ | ⟨_, _, _, hl0, hr⟩
    · exact hz
    · exact sb_resize_zero_tail hwf hz (double_loop_result_zero hl0) hr
  have hwf1 : wf sb1 := by
    rcases hg with ⟨_, rfl⟩ | ⟨_, _, _, hl0, hr⟩
    · exact hwf
    · exact sb_resize_wf hwf (double_loop_result_zero hl0) hr
  obtain ⟨hlen, hp0, hps⟩ := hwf1
  have hi := memcpy_inv hm
  show block.drop (sb1.pos + n).toNat = List.replicate (sb1.size - (sb1.pos + n)).toNat 0
  rw [memcpy_drop hm, show (sb1.pos + n).toNat = sb1.pos.toNat + n.toNat by omega,
    drop_replicate_advance n.toNat hz1]
  congr 1
  omega

theorem sb_append_ch_zero_tail {heap : Alloc} {sb s1 : stringbuilder} {ch : Byte}
    (hwf : wf sb) (hz : zero_tail sb) (h : sb_append_ch heap sb ch = .ok s1) :
    zero_tail s1 := by
  obtain ⟨sb1, block, hg, hm, rfl⟩ := sb_append_ch_inv h
  have hz1 : zero_tail sb1 := by
    rcases hg with ⟨_, rfl⟩ | ⟨_, _, hr⟩
    · exact hz
    · exact sb_resize_zero_tail hwf hz (fun h => by omega) hr
  have hwf1 : wf sb1 := by
    rcases hg with ⟨_, rfl⟩ | ⟨_, _, hr⟩
    · exact hwf
    · exact sb_resize_wf hwf (fun h => by omega) hr
  obtain ⟨hlen, hp0, hps⟩ := hwf1
  have hi := store_inv hm
  show block.drop (sb1.pos + 1).toNat = List.replicate (sb1.size - (sb1.pos + 1)).toNat 0
  rw [store_drop hm, show (sb1.pos + 1).toNat = sb1.pos.toNat + 1 by omega,
    drop_replicate_advance 1 hz1]
  congr 1
  omega

theorem sb_reset_zero_tail {sb s1 : stringbuilder} (hwf : wf sb)
    (h : sb_reset sb = .ok s1) : zero_tail s1 := by
  rw [sb_reset_eq sb hwf.1] at h
  injection h with h
  subst h
  show (List.replicate sb.size.toNat (0 : Byte)).drop (0 : Int).toNat
    = List.replicate (sb.size - 0).toNat 0
  rw [show (0 : Int).toNat = 0 from rfl, List.drop_zero, sub_zero]

/-- Every returning call keeps the bytes from `pos` on zero. -/
theorem step_zero_tail {fuel : Nat} {heap : Alloc} {sb s1 : stringbuilder} {op : Op}
    (hwf : wf sb) (hz : zero_tail sb) (h : step fuel heap sb op = .ok s1) : zero_tail s1 := by
  cases op with
  | reset => exact sb_reset_zero_tail hwf h
  | append_ch ch => exact sb_append_ch_zero_tail hwf hz h
  | append_strn src n => exact sb_append_strn_zero_tail hwf hz h
  | append_str src =>
    obtain ⟨n, _, hn⟩ := sb_append_str_inv h
    exact sb_append_strn_zero_tail hwf hz hn
  | double_size =>
    obtain ⟨r, hr⟩ := step_double_size_inv h
    exact sb_resize_zero_tail hwf hz (fun h => by omega) hr

theorem run_zero_tail {fuel : Nat} : ∀ (calls : List (Op × Alloc)) {sb s1 : stringbuilder},
    wf sb → zero_tail sb → run fuel calls sb = .ok s1 → zero_tail s1 := by
  intro calls
  induction calls with
  | nil =>
    intro sb s1 _ hz h
    simp only [run, Except.ok.injEq] at h
    exact h ▸ hz
  | cons c rest ih =>
    intro sb s1 hwf hz h
    obtain ⟨op, heap⟩ := c
    obtain ⟨s, hs, hr⟩ := run_cons_inv h
    exact ih (step_wf hwf hs) (step_zero_tail hwf hz hs) hr

/-- The buffer returned by `sb_new_with_size`: `n` zero bytes, `n ≥ 0`. -/
theorem sb_new_with_size_inv {n : Int} {sb0 : stringbuilder}
    (h : sb_new_with_size n = .ok sb0) :
    0 ≤ n ∧ sb0 = { cstr := List.replicate n.toNat 0, pos := 0, size := n, reallocs := 0 } := by
  unfold sb_new_with_size at h
  split at h
  · cases h
  · rename_i hn
    injection h with h
    exact ⟨by omega, h.symm⟩

theorem sb_new_with_size_wf {n : Int} {sb0 : stringbuilder}
    (h : sb_new_with_size n = .ok sb0) : wf sb0 ∧ zero_tail sb0 ∧ sb0.size = n := by
  obtain ⟨hn, rfl⟩ := sb_new_with_size_inv h
  refine ⟨⟨?_, le_refl _, hn⟩, ?_, rfl⟩
  · show ((List.replicate n.toNat (0 : Byte)).length : Int) = n
    rw [List.length_replicate]; omega
  · show (List.replicate n.toNat (0 : Byte)).drop (0 : Int).toNat
      = List.replicate (n - 0).toNat 0
    rw [show (0 : Int).toNat = 0 from rfl, List.drop_zero, sub_zero]

/-- Claim C16 (zero-tail invariant).  In every state reached from `sb_new_with_size n` by a
returning sequence of `sb_reset`, `sb_append_ch`, `sb_append_strn`, `sb_append_str` (and
`sb_double_size`) calls, every byte of `cstr[pos..size)` is zero. -/
theorem zero_tail_invariant (n : Int) (fuel : Nat) (calls : List (Op × Alloc))
    (sb0 sb : stringbuilder) (hnew : sb_new_with_size n = .ok sb0)
    (hrun : run fuel calls sb0 = .ok sb) :
    zero_tail sb ∧ ∀ i : Nat, sb.pos ≤ i → (i : Int) < sb.size → sb.cstr[i]? = some 0 := by
  obtain ⟨hwf0, hz0, _⟩ := sb_new_with_size_wf hnew
  have hz := run_zero_tail calls hwf0 hz0 hrun
  obtain ⟨hlen, hp0, hps⟩ := run_wf calls hwf0 hrun
  refine ⟨hz, ?_⟩
  intro i hpi his
  have e : i = sb.pos.toNat + (i - sb.pos.toNat) := by omega
  have hd : (sb.cstr.drop sb.pos.toNat)[i - sb.pos.toNat]? = sb.cstr[i]? := by
    rw [List.getElem?_drop, ← e]
  rw [← hd, hz, List.getElem?_replicate, if_pos (by omega)]

/-- Instance of C16: a run with appends of all kinds, a growth and a reset in between. -/
theorem zero_tail_invariant_witness :
    zero_tail ⟨[120, 121, 122, 119, 0, 0, 0, 0], 4, 8, 1⟩ ∧
    ∀ i : Nat, (⟨[120, 121, 122, 119, 0, 0, 0, 0], 4, 8, 1⟩ : stringbuilder).pos ≤ i →
      (i : Int) < (⟨[120, 121, 122, 119, 0, 0, 0, 0], 4, 8, 1⟩ : stringbuilder).size →
      (⟨[120, 121, 122, 119, 0, 0, 0, 0], 4, 8, 1⟩ : stringbuilder).cstr[i]? = some 0 :=
  zero_tail_invariant 2 3
    [(.append_ch 97, .ok fun _ => 7), (.append_strn [98, 99, 100] 3, .ok fun _ => 7),
     (.reset, .ok fun _ => 7), (.append_str [120, 121, 122, 0], .ok fun _ => 7),
     (.append_ch 119, .ok fun _ => 7)]
    ⟨[0, 0], 0, 2, 0⟩ ⟨[120, 121, 122, 119, 0, 0, 0, 0], 4, 8, 1⟩ rfl rfl

/-- Claim C17 (in-bounds writes).  In every state reached from `sb_new_with_size n`, `n ≥ 1`,
by a returning sequence of calls, `0 ≤ pos ≤ size` holds and `size` bytes are allocated;
from there, within the `int` range and with `realloc` succeeding, `sb_append_ch` returns,
having written at the index `pos`, which is strictly below the possibly doubled size; and
`sb_append_strn` with a count `≥ 0` returns, having copied into `[pos, pos + count)`, which
ends at or before `size - 1` of the possibly grown storage.  Both writes are inside the
allocated block, whose size is an `int`. -/
theorem in_bounds_writes (n : Int) (hn : 1 ≤ n) (fuel : Nat) (calls : List (Op × Alloc))
    (sb0 sb : stringbuilder) (hnew : sb_new_with_size n = .ok sb0)
    (hrun : run fuel calls sb0 = .ok sb) :
    (0 ≤ sb.pos ∧ sb.pos ≤ sb.size ∧ (sb.cstr.length : Int) = sb.size) ∧
    (∀ (junk : Nat → Byte) (ch : Byte), ch_in_int_range sb →
      ∃ s1, sb_append_ch (.ok junk) sb ch = .ok s1 ∧ 0 ≤ sb.pos ∧ sb.pos < s1.size ∧
        s1.size ≤ INT_MAX ∧
        (s1.cstr.length : Int) = s1.size ∧ s1.cstr[sb.pos.toNat]? = some ch) ∧
    (∀ (junk : Nat → Byte) (src : List Byte) (count : Int) (fuel1 : Nat),
      0 ≤ count → count ≤ src.length → strn_in_int_range sb count →
      (sb.pos + count + 1).toNat ≤ fuel1 →
      ∃ s1, sb_append_strn fuel1 (.ok junk) sb src count = .ok s1 ∧ 0 ≤ sb.pos ∧
        sb.pos + count ≤ s1.size - 1 ∧ s1.size ≤ INT_MAX ∧
        (s1.cstr.length : Int) = s1.size ∧
        (s1.cstr.drop sb.pos.toNat).take count.toNat = src.take count.toNat) := by
  obtain ⟨hwf0, _, hs0⟩ := sb_new_with_size_wf hnew
  have hwf := run_wf calls hwf0 hrun
  have hsize : 1 ≤ sb.size := by
    have := run_size_le calls hrun
    omega
  refine ⟨⟨hwf.2.1, hwf.2.2, hwf.1⟩, ?_, ?_⟩
  · intro junk ch hrange
    obtain ⟨s1, hs, hp, hmax, _⟩ := sb_append_ch_total junk sb ch hwf hsize hrange
    have hwf1 := sb_append_ch_wf hwf hs
    refine ⟨s1, hs, hwf.2.1, ?_, hmax, hwf1.1, sb_append_ch_get hs⟩
    have := hwf1.2.2
    omega
  · intro junk src count fuel1 hc hsrc hrange hfuel
    obtain ⟨s1, hs, hp, hlt, hmax, _⟩ :=
      sb_append_strn_total fuel1 junk sb src count hwf hsize hc hsrc hrange hfuel
    have hwf1 := sb_append_strn_wf hwf hs
    refine ⟨s1, hs, hwf.2.1, by omega, hmax, hwf1.1, ?_⟩
    have ht := (sb_append_strn_take hwf hs).2
    have hl : (sb.cstr.take sb.pos.toNat).length = sb.pos.toNat := by
      rw [List.length_take]
      have := hwf.1
      have := hwf.2.2
      omega
    have e : (sb.pos + count).toNat = sb.pos.toNat + count.toNat := by
      have := hwf.2.1
      omega
    rw [List.take_drop, ← e, ht]
    exact drop_append_of_length hl

/-- Instance of C17 after a run that fills a 2-byte block completely: the state, a byte
appended to it and three bytes appended to it. -/
theorem in_bounds_writes_witness :
    (0 ≤ (⟨[97, 98], 2, 2, 0⟩ : stringbuilder).pos ∧
      (⟨[97, 98], 2, 2, 0⟩ : stringbuilder).pos ≤ (⟨[97, 98], 2, 2, 0⟩ : stringbuilder).size ∧
      (((⟨[97, 98], 2, 2, 0⟩ : stringbuilder).cstr.length : Nat) : Int)
        = (⟨[97, 98], 2, 2, 0⟩ : stringbuilder).size) ∧
    (∃ s1, sb_append_ch (.ok fun _ => 7) ⟨[97, 98], 2, 2, 0⟩ 99 = .ok s1 ∧
        0 ≤ (⟨[97, 98], 2, 2, 0⟩ : stringbuilder).pos ∧
        (⟨[97, 98], 2, 2, 0⟩ : stringbuilder).pos < s1.size ∧ s1.size ≤ INT_MAX ∧
        (s1.cstr.length : Int) = s1.size ∧
        s1.cstr[(⟨[97, 98], 2, 2, 0⟩ : stringbuilder).pos.toNat]? = some 99) ∧
    (∃ s1, sb_append_strn 6 (.ok fun _ => 7) ⟨[97, 98], 2, 2, 0⟩ [99, 100, 101] 3 = .ok s1 ∧
        0 ≤ (⟨[97, 98], 2, 2, 0⟩ : stringbuilder).pos ∧
        (⟨[97, 98], 2, 2, 0⟩ : stringbuilder).pos + 3 ≤ s1.size - 1 ∧ s1.size ≤ INT_MAX ∧
        (s1.cstr.length : Int) = s1.size ∧
        (s1.cstr.drop (⟨[97, 98], 2, 2, 0⟩ : stringbuilder).pos.toNat).take (3 : Int).toNat
          = ([99, 100, 101] : List Byte).take (3 : Int).toNat) :=
  have h := in_bounds_writes 2 (by decide) 0
    [(.append_ch 97, .ok fun _ => 7), (.append_ch 98, .ok fun _ => 7)]
    ⟨[0, 0], 0, 2, 0⟩ ⟨[97, 98], 2, 2, 0⟩ rfl rfl
  ⟨h.1, h.2.1 (fun _ => 7) 99 (by decide),
    h.2.2 (fun _ => 7) [99, 100, 101] 3 6 (by decide) (by decide) (by decide) (by decide)⟩

/-- Claim C18 (the bulk append re-establishes the terminator slot).  On a buffer with
`size ≥ 1` and `0 ≤ pos ≤ size`, the full state `pos == size` included, within the `int`
range, `sb_append_strn` with a count `≥ 0` and `realloc` succeeding returns with
`pos < size`, the size being an `int`; with a count of 0 on a buffer with `pos == size` it
grows the storage (to twice the size, one reallocation) and leaves `pos` and the written
bytes unchanged. -/
theorem bulk_append_terminator_slot :
    (∀ (fuel : Nat) (junk : Nat → Byte) (sb : stringbuilder) (src : List Byte) (count : Int),
      wf sb → 1 ≤ sb.size → 0 ≤ count → count ≤ src.length →
      strn_in_int_range sb count → (sb.pos + count + 1).toNat ≤ fuel →
      ∃ s1, sb_append_strn fuel (.ok junk) sb src count = .ok s1 ∧
        s1.pos = sb.pos + count ∧ s1.pos < s1.size ∧ s1.size ≤ INT_MAX ∧
        (s1.cstr.length : Int) = s1.size) ∧
    (∀ (fuel : Nat) (junk : Nat → Byte) (sb : stringbuilder) (src : List Byte),
      wf sb → 1 ≤ sb.size → sb.pos = sb.size → strn_in_int_range sb 0 →
      (sb.pos + 0 + 1).toNat ≤ fuel →
      ∃ s1, sb_append_strn fuel (.ok junk) sb src 0 = .ok s1 ∧
        s1.size = 2 * sb.size ∧ s1.reallocs = sb.reallocs + 1 ∧ s1.pos = sb.pos ∧
        s1.pos < s1.size ∧ s1.size ≤ INT_MAX ∧ s1.reallocs ≤ INT_MAX ∧
        s1.cstr.take sb.pos.toNat = sb.cstr.take sb.pos.toNat) := by
  refine ⟨?_, ?_⟩
  · intro fuel junk sb src count hwf hsize hc hsrc hrange hfuel
    obtain ⟨s1, hs, hp, hlt, hmax, _⟩ :=
      sb_append_strn_total fuel junk sb src count hwf hsize hc hsrc hrange hfuel
    exact ⟨s1, hs, hp, hlt, hmax, (sb_append_strn_wf hwf hs).1⟩
  · intro fuel junk sb src hwf hsize hfull hrange hfuel
    obtain ⟨k, hk, hb, hmin, he⟩ := sb_append_strn_grow_eq fuel junk sb src 0 hwf hsize
      (le_refl _) (Int.natCast_nonneg _) (by omega) hfuel
    obtain ⟨_, _, hgr⟩ := hrange
    obtain ⟨h2, hre⟩ := hgr (by omega)
    have hk1 : k = 1 := by
      by_contra hne
      have := hmin 1 (le_refl _) (by omega)
      omega
    subst hk1
    refine ⟨_, he, ?_, rfl, ?_, ?_, ?_, ?_, sb_append_strn_take_low hwf he⟩
    · show sb.size * 2 ^ 1 = 2 * sb.size
      ring
    · show sb.pos + 0 = sb.pos
      omega
    · show sb.pos + 0 < sb.size * 2 ^ 1
      omega
    · show sb.size * 2 ^ 1 ≤ INT_MAX
      omega
    · show sb.reallocs + 1 ≤ INT_MAX
      omega

/-- Instance of C18 on a full block of 2 bytes: a count of 3 and a count of 0. -/
theorem bulk_append_terminator_slot_witness :
    (∃ s1, sb_append_strn 6 (.ok fun _ => 7) ⟨[97, 98], 2, 2, 0⟩ [99, 100, 101] 3 = .ok s1 ∧
        s1.pos = 2 + 3 ∧ s1.pos < s1.size ∧ s1.size ≤ INT_MAX ∧
        (s1.cstr.length : Int) = s1.size) ∧
    (∃ s1, sb_append_strn 3 (.ok fun _ => 7) ⟨[97, 98], 2, 2, 0⟩ [] 0 = .ok s1 ∧
        s1.size = 2 * 2 ∧ s1.reallocs = 0 + 1 ∧ s1.pos = 2 ∧
        s1.pos < s1.size ∧ s1.size ≤ INT_MAX ∧ s1.reallocs ≤ INT_MAX ∧
        s1.cstr.take (2 : Int).toNat = ([97, 98] : List Byte).take (2 : Int).toNat) :=
  ⟨bulk_append_terminator_slot.1 6 (fun _ => 7) ⟨[97, 98], 2, 2, 0⟩ [99, 100, 101] 3
      (by decide) (by decide) (by decide) (by decide) (by decide) (by decide),
    bulk_append_terminator_slot.2 3 (fun _ => 7) ⟨[97, 98], 2, 2, 0⟩ []
      (by decide) (by decide) (by decide) (by decide) (by decide)⟩

theorem run_append_each (fuel : Nat) : ∀ (bytes : List (Byte × (Nat → Byte)))
    (sb : stringbuilder), wf sb → 1 ≤ sb.size → sb.size ≤ INT_MAX →
    (sb.pos + bytes.length) * 2 ≤ INT_MAX → sb.reallocs + bytes.length ≤ INT_MAX →
    ∃ s1, run fuel (append_each bytes) sb = .ok s1 ∧ s1.pos = sb.pos + bytes.length ∧
      s1.cstr.take s1.pos.toNat
        = sb.cstr.take sb.pos.toNat ++ bytes.map (fun b => b.1) ∧
      s1.size ≤ INT_MAX ∧ s1.reallocs ≤ INT_MAX := by
  intro bytes
  induction bytes with
  | nil =>
    intro sb _ _ hmax _ hre
    exact ⟨sb, rfl, by simp, by simp, hmax, by simpa using hre⟩
  | cons b rest ih =>
    intro sb hwf hsize hmax hrange hre
    rw [List.length_cons] at hrange hre
    push_cast at hrange hre
    have hp0 := hwf.2.1
    obtain ⟨s, hs, hp, hmax1, hre1, _, hcase⟩ := sb_append_ch_total b.2 sb b.1 hwf hsize
      ⟨hmax, by omega, fun hfull => ⟨by omega, by omega⟩⟩
    obtain ⟨_, ht⟩ := sb_append_ch_take hwf hs
    have hsz := sb_append_ch_size_le hs
    have hre2 : s.reallocs ≤ sb.reallocs + 1 := by
      rcases hcase with ⟨_, _, hr⟩ | ⟨_, _, hr⟩ <;> omega
    obtain ⟨s1, hr, hp1, ht1, hmax2, hre3⟩ := ih s (sb_append_ch_wf hwf hs) (by omega) hmax1
      (by rw [hp]; omega) (by omega)
    refine ⟨s1, ?_, ?_, ?_, hmax2, hre3⟩
    · simp only [append_each, List.map_cons, run, step, hs]
      exact hr
    · rw [hp1, hp, List.length_cons]
      push_cast
      ring
    · rw [ht1, hp, ht]
      simp

/-- Claim C19 (byte-wise and bulk append agree on content).  On a buffer with `size ≥ 1`
and `0 ≤ pos ≤ size`, within the `int` range (`size`, twice the new length and the counter
after one reallocation per byte are `int`s), appending the bytes of a chunk one at a time
with `sb_append_ch` and appending the chunk at once with `sb_append_strn`, every `realloc`
succeeding, both return, with the same `pos` and the same bytes `cstr[0..pos)`: the old
written bytes followed by the chunk; the sizes and counters reached are `int`s.  The sizes
and reallocation counts can differ: 4 bytes appended to an empty 4-byte buffer leave it at 4
bytes byte-wise and grow it to 8 in bulk. -/
theorem bytewise_bulk_agree :
    (∀ (fuel0 fuel : Nat) (junk : Nat → Byte) (sb : stringbuilder)
      (bytes : List (Byte × (Nat → Byte))), wf sb → 1 ≤ sb.size → sb.size ≤ INT_MAX →
      (sb.pos + bytes.length) * 2 ≤ INT_MAX → sb.reallocs + bytes.length < INT_MAX →
      (sb.pos + bytes.length + 1).toNat ≤ fuel →
      ∃ s_ch s_strn, run fuel0 (append_each bytes) sb = .ok s_ch ∧
        sb_append_strn fuel (.ok junk) sb (bytes.map (fun b => b.1)) bytes.length
          = .ok s_strn ∧
        s_ch.pos = s_strn.pos ∧
        s_ch.cstr.take s_ch.pos.toNat = s_strn.cstr.take s_strn.pos.toNat ∧
        s_strn.cstr.take s_strn.pos.toNat
          = sb.cstr.take sb.pos.toNat ++ bytes.map (fun b => b.1) ∧
        s_ch.size ≤ INT_MAX ∧ s_ch.reallocs ≤ INT_MAX ∧
        s_strn.size ≤ INT_MAX ∧ s_strn.reallocs ≤ INT_MAX) ∧
    (∃ s_ch s_strn,
      run 0 (append_each [(97, fun _ => 7), (98, fun _ => 7), (99, fun _ => 7),
        (100, fun _ => 7)]) ⟨[0, 0, 0, 0], 0, 4, 0⟩ = .ok s_ch ∧
      sb_append_strn 1 (.ok fun _ => 7) ⟨[0, 0, 0, 0], 0, 4, 0⟩ [97, 98, 99, 100] 4
        = .ok s_strn ∧
      s_ch.size = 4 ∧ s_strn.size = 8 ∧ s_ch.reallocs = 0 ∧ s_strn.reallocs = 1) := by
  refine ⟨?_, ⟨_, _, rfl, rfl, rfl, rfl, rfl, rfl⟩⟩
  intro fuel0 fuel junk sb bytes hwf hsize hmax hrange hre hfuel
  obtain ⟨s_ch, hrun, hp, ht, hmax1, hre1⟩ :=
    run_append_each fuel0 bytes sb hwf hsize hmax hrange (by omega)
  have hlen : ((bytes.map (fun b => b.1)).length : Int) = bytes.length := by
    rw [List.length_map]
  obtain ⟨s_strn, hs, _, _, hmax2, hre2, _⟩ := sb_append_strn_total fuel junk sb
    (bytes.map (fun b => b.1)) bytes.length hwf hsize (Int.natCast_nonneg _) (by rw [hlen])
    ⟨hmax, by omega, fun _ => ⟨hrange, by omega⟩⟩ hfuel
  obtain ⟨hp2, ht2⟩ := sb_append_strn_take hwf hs
  have hfull : (bytes.map (fun b => b.1)).take ((bytes.length : Int)).toNat
      = bytes.map (fun b => b.1) := by
    rw [Int.toNat_natCast]
    exact List.take_of_length_le (by rw [List.length_map])
  rw [hfull] at ht2
  refine ⟨s_ch, s_strn, hrun, hs, by rw [hp, hp2], ?_, ?_, hmax1, hre1, hmax2, hre2⟩
  · rw [ht, hp2, ht2]
  · rw [hp2, ht2]

/-- Instance of C19: `"cd"` appended to `"ab"` in a block of 3 bytes. -/
theorem bytewise_bulk_agree_witness :
    ∃ s_ch s_strn,
      run 0 (append_each [(99, fun _ => 7), (100, fun _ => 9)]) ⟨[97, 98, 0], 2, 3, 0⟩
        = .ok s_ch ∧
      sb_append_strn 5 (.ok fun _ => 7) ⟨[97, 98, 0], 2, 3, 0⟩
          ([(99, fun _ => 7), (100, fun _ => 9)].map
            (fun b : Byte × (Nat → Byte) => b.1))
          ([(99, fun _ => 7), (100, fun _ => 9)] : List (Byte × (Nat → Byte))).length
        = .ok s_strn ∧
      s_ch.pos = s_strn.pos ∧
      s_ch.cstr.take s_ch.pos.toNat = s_strn.cstr.take s_strn.pos.toNat ∧
      s_strn.cstr.take s_strn.pos.toNat
        = ([97, 98, 0] : List Byte).take (2 : Int).toNat
          ++ [(99, fun _ => 7), (100, fun _ => 9)].map
            (fun b : Byte × (Nat → Byte) => b.1) ∧
      s_ch.size ≤ INT_MAX ∧ s_ch.reallocs ≤ INT_MAX ∧
      s_strn.size ≤ INT_MAX ∧ s_strn.reallocs ≤ INT_MAX :=
  bytewise_bulk_agree.1 0 5 (fun _ => 7) ⟨[97, 98, 0], 2, 3, 0⟩
    [(99, fun _ => 7), (100, fun _ => 9)] (by decide) (by decide) (by decide) (by decide)
    (by decide) (by decide)

/-- Starting from 0 the doubled size stays 0, so the loop runs as long as there is fuel when
its bound is positive. -/
theorem double_loop_zero (fuel : Nat) (size req : Int) (h : 0 < size + req) :
    double_loop fuel 0 size req = .error .timeout := by
  induction fuel with
  | zero => rfl
  | succ f ih =>
    simp only [double_loop]
    rw [show (0 : Int) * 2 = 0 from rfl, if_pos h]
    exact ih

/-- Claim C20 (termination of the doubling loop).  For a buffer with `0 ≤ pos ≤ size` and a
count `≥ 0` with `size - pos - 1 < count`, the doubling loop of `sb_append_strn` returns for
some amount of fuel exactly when `size ≥ 1`.  On the buffer created by `sb_new_with_size(0)`
every count `≥ 0` enters the loop, and the loop, hence `sb_append_strn`, is still running
after any amount of fuel. -/
theorem doubling_loop_termination :
    (∀ (sb : stringbuilder) (count : Int), 0 ≤ sb.pos → sb.pos ≤ sb.size → 0 ≤ count →
      sb.size - sb.pos - 1 < count →
      ((∃ fuel r, double_loop fuel sb.size sb.size (count - (sb.size - sb.pos - 1)) = .ok r)
        ↔ 1 ≤ sb.size)) ∧
    (∀ (sb0 : stringbuilder) (fuel : Nat) (heap : Alloc) (src : List Byte) (count : Int),
      sb_new_with_size 0 = .ok sb0 → 0 ≤ count →
      sb0.size - sb0.pos - 1 < count ∧
      double_loop fuel sb0.size sb0.size (count - (sb0.size - sb0.pos - 1))
        = .error .timeout ∧
      sb_append_strn fuel heap sb0 src count = .error .timeout) := by
  refine ⟨?_, ?_⟩
  · intro sb count hp0 hps hc hgrow
    constructor
    · rintro ⟨fuel, r, hr⟩
      by_contra hsz
      have h0 : sb.size = 0 := by omega
      rw [h0, double_loop_zero fuel 0 _ (by omega)] at hr
      cases hr
    · intro hsz
      obtain ⟨r, hr⟩ := double_loop_returns ((sb.pos + count + 1).toNat) sb.size sb.size
        (count - (sb.size - sb.pos - 1)) hsz (by omega)
      exact ⟨_, r, hr⟩
  · intro sb0 fuel heap src count hnew hc
    obtain ⟨_, rfl⟩ := sb_new_with_size_inv hnew
    have hl : double_loop fuel 0 0 (count - (0 - 0 - 1)) = .error .timeout :=
      double_loop_zero fuel 0 _ (by omega)
    refine ⟨by show (0 : Int) - 0 - 1 < count; omega, hl, ?_⟩
    unfold sb_append_strn
    simp only
    rw [if_pos (by omega), hl]

/-- Instance of C20: a 3-byte buffer (the loop returns) and the buffer of `sb_new_with_size(0)`
(it does not, here after 1000 iterations). -/
theorem doubling_loop_termination_witness :
    ((∃ fuel r, double_loop fuel 3 3 (10 - (3 - 1 - 1)) = .ok r) ↔ (1 : Int) ≤ 3) ∧
    ((0 : Int) - 0 - 1 < 5 ∧
      double_loop 1000 0 0 (5 - (0 - 0 - 1)) = .error .timeout ∧
      sb_append_strn 1000 (.ok fun _ => 7) ⟨[], 0, 0, 0⟩ [1, 2, 3, 4, 5] 5
        = .error .timeout) :=
  ⟨doubling_loop_termination.1 ⟨[97, 0, 0], 1, 3, 0⟩ 10 (by decide) (by decide) (by decide)
      (by decide),
    doubling_loop_termination.2 ⟨[], 0, 0, 0⟩ 1000 (.ok fun _ => 7) [1, 2, 3, 4, 5] 5 rfl
      (by decide)⟩


end SB
